import Mathlib

set_option maxRecDepth 100000
set_option maxHeartbeats 4000000

/-!
Shallow embedding of the credential and encrypted-identity subsystem of the
gameshop repository (src/encryption.rs, src/hashing.rs, src/jwt.rs,
src/middleware.rs, src/database.rs, src/server.rs), together with theorems
settling the specification claims about it.

Rust machine integers are modelled as `Nat` with explicit reduction modulo
`2 ^ 32` where 32-bit overflow matters; byte strings are `List Nat` with
entries below 256; fallible Rust functions return `Except`; calls that can
panic return a dedicated outcome type with a panic constructor.  External
cryptographic primitives that the code invokes (SHA-256, the ChaCha20 block
function, Poly1305, base64) are implemented concretely from their public
definitions; the memory-hard Argon2 digest and the HMAC signer are taken as
function parameters, with collision-freeness as an explicit hypothesis where
a claim needs it.
-/

/-! ## Bitwise helpers on `Nat` (32-bit words and bytes) -/

/-- Exclusive or of the low bits of two naturals. -/
def bitXor1 (a b : Nat) : Nat := if a % 2 = b % 2 then 0 else 1

/-- And of the low bits of two naturals. -/
def bitAnd1 (a b : Nat) : Nat := if a % 2 = 1 ∧ b % 2 = 1 then 1 else 0

/-- Bitwise exclusive or over the given number of low bits. -/
def xorAux : Nat → Nat → Nat → Nat
  | 0, _, _ => 0
  | fuel + 1, x, y => bitXor1 x y + 2 * xorAux fuel (x / 2) (y / 2)

/-- Bitwise and over the given number of low bits. -/
def andAux : Nat → Nat → Nat → Nat
  | 0, _, _ => 0
  | fuel + 1, x, y => bitAnd1 x y + 2 * andAux fuel (x / 2) (y / 2)

/-- 32-bit exclusive or. -/
def xor32 (x y : Nat) : Nat := xorAux 32 x y

/-- 32-bit and. -/
def and32 (x y : Nat) : Nat := andAux 32 x y

/-- Exclusive or of two bytes. -/
def xorByte (x y : Nat) : Nat := xorAux 8 x y

/-- 32-bit complement (input is reduced modulo `2 ^ 32`). -/
def not32 (x : Nat) : Nat := 4294967295 - x % 4294967296

/-- 32-bit wrapping addition. -/
def add32 (x y : Nat) : Nat := (x + y) % 4294967296

/-- Right rotation of a 32-bit word by `n` places. -/
def rotr32 (n x : Nat) : Nat := x / 2 ^ n + x % 2 ^ n * 2 ^ (32 - n)

/-- Logical right shift of a 32-bit word by `n` places. -/
def shr32 (n x : Nat) : Nat := x / 2 ^ n

/-! ## SHA-256 (FIPS 180-4), as used through the sha2 crate -/

/-- The SHA-256 round constants. -/
def sha256K : List Nat :=
  [1116352408, 1899447441, 3049323471, 3921009573, 961987163, 1508970993,
   2453635748, 2870763221, 3624381080, 310598401, 607225278, 1426881987,
   1925078388, 2162078206, 2614888103, 3248222580, 3835390401, 4022224774,
   264347078, 604807628, 770255983, 1249150122, 1555081692, 1996064986,
   2554220882, 2821834349, 2952996808, 3210313671, 3336571891, 3584528711,
   113926993, 338241895, 666307205, 773529912, 1294757372, 1396182291,
   1695183700, 1986661051, 2177026350, 2456956037, 2730485921, 2820302411,
   3259730800, 3345764771, 3516065817, 3600352804, 4094571909, 275423344,
   430227734, 506948616, 659060556, 883997877, 958139571, 1322822218,
   1537002063, 1747873779, 1955562222, 2024104815, 2227730452, 2361852424,
   2428436474, 2756734187, 3204031479, 3329325298]

def sha256H0 : List Nat :=
  [1779033703, 3144134277, 1013904242, 2773480762,
   1359893119, 2600822924, 528734635, 1541459225]

/-- The SHA-256 big sigma-0 word function. -/
def bigSigma0 (x : Nat) : Nat := xor32 (rotr32 2 x) (xor32 (rotr32 13 x) (rotr32 22 x))

/-- The SHA-256 big sigma-1 word function. -/
def bigSigma1 (x : Nat) : Nat := xor32 (rotr32 6 x) (xor32 (rotr32 11 x) (rotr32 25 x))

/-- The SHA-256 small sigma-0 word function. -/
def smallSigma0 (x : Nat) : Nat := xor32 (rotr32 7 x) (xor32 (rotr32 18 x) (shr32 3 x))

/-- The SHA-256 small sigma-1 word function. -/
def smallSigma1 (x : Nat) : Nat := xor32 (rotr32 17 x) (xor32 (rotr32 19 x) (shr32 10 x))

/-- The SHA-256 choice word function. -/
def chFn (x y z : Nat) : Nat := xor32 (and32 x y) (and32 (not32 x) z)

/-- The SHA-256 majority word function. -/
def majFn (x y z : Nat) : Nat := xor32 (and32 x y) (xor32 (and32 x z) (and32 y z))

/-- Big-endian packing of bytes into 32-bit words, four at a time. -/
def bytesToWordsBE : List Nat → List Nat
  | b0 :: b1 :: b2 :: b3 :: rest => (((b0 * 256 + b1) * 256 + b2) * 256 + b3) :: bytesToWordsBE rest
  | _ => []

/-- Big-endian bytes of a 32-bit word. -/
def wordToBytesBE (w : Nat) : List Nat :=
  [w / 16777216 % 256, w / 65536 % 256, w / 256 % 256, w % 256]

/-- Big-endian bytes of a 64-bit length field. -/
def u64BytesBE (n : Nat) : List Nat :=
  [n / 2 ^ 56 % 256, n / 2 ^ 48 % 256, n / 2 ^ 40 % 256, n / 2 ^ 32 % 256,
   n / 2 ^ 24 % 256, n / 2 ^ 16 % 256, n / 2 ^ 8 % 256, n % 256]

/-- SHA-256 message padding: a 0x80 byte, zeros to 56 modulo 64, then the
bit length as a 64-bit big-endian integer. -/
def sha256Pad (msg : List Nat) : List Nat :=
  msg ++ 0x80 :: List.replicate ((119 - msg.length % 64) % 64) 0 ++ u64BytesBE (8 * msg.length)

/-- Message-schedule extension: the accumulator holds the schedule so far,
most recent word first; each step prepends one new word. -/
def scheduleExtend : Nat → List Nat → List Nat
  | 0, acc => acc
  | n + 1, acc =>
      let w := add32 (add32 (smallSigma1 (acc.getD 1 0)) (acc.getD 6 0))
        (add32 (smallSigma0 (acc.getD 14 0)) (acc.getD 15 0))
      scheduleExtend n (w :: acc)

/-- The 64-word message schedule of one 16-word block. -/
def sha256Schedule (block : List Nat) : List Nat :=
  (scheduleExtend 48 block.reverse).reverse

/-- One SHA-256 round on the eight-word working state. -/
def sha256Round (st : List Nat) (kw : Nat × Nat) : List Nat :=
  match st with
  | [a, b, c, d, e, f, g, h] =>
      let t1 := add32 h (add32 (bigSigma1 e) (add32 (chFn e f g) (add32 kw.1 kw.2)))
      let t2 := add32 (bigSigma0 a) (majFn a b c)
      [add32 t1 t2, a, b, c, add32 d t1, e, f, g]
  | other => other

/-- SHA-256 compression of one 16-word block into the running hash. -/
def sha256Compress (h : List Nat) (block : List Nat) : List Nat :=
  let st := (sha256K.zip (sha256Schedule block)).foldl sha256Round h
  (h.zip st).map fun p => add32 p.1 p.2

/-- Fold SHA-256 compression over the padded message, 16 words at a time. -/
def sha256Blocks (h : List Nat) : List Nat → List Nat
  | w0 :: w1 :: w2 :: w3 :: w4 :: w5 :: w6 :: w7 ::
    w8 :: w9 :: w10 :: w11 :: w12 :: w13 :: w14 :: w15 :: rest =>
      sha256Blocks
        (sha256Compress h [w0, w1, w2, w3, w4, w5, w6, w7, w8, w9, w10, w11, w12, w13, w14, w15])
        rest
  | _ => h

/-- SHA-256 of a byte string, as 32 digest bytes. -/
def sha256 (msg : List Nat) : List Nat :=
  (sha256Blocks sha256H0 (bytesToWordsBE (sha256Pad msg))).foldr
    (fun w acc => wordToBytesBE w ++ acc) []

/-- Lowercase hexadecimal digit. -/
def hexDigit (n : Nat) : Char := if n < 10 then Char.ofNat (48 + n) else Char.ofNat (87 + n)

/-- Lowercase hexadecimal rendering of a byte string, two digits per byte,
as produced by formatting a sha2 digest with the lower-hex formatter. -/
def bytesToHex (bs : List Nat) : String :=
  String.mk (bs.foldr (fun b acc => hexDigit (b / 16) :: hexDigit (b % 16) :: acc) [])

/-! ## UTF-8, modelling Rust str::as_bytes on Lean strings -/

/-- UTF-8 encoding of one Unicode scalar value. -/
def utf8EncodeChar (c : Char) : List Nat :=
  let n := c.toNat
  if n < 0x80 then [n]
  else if n < 0x800 then [0xc0 + n / 64, 0x80 + n % 64]
  else if n < 0x10000 then [0xe0 + n / 4096, 0x80 + n / 64 % 64, 0x80 + n % 64]
  else [0xf0 + n / 262144, 0x80 + n / 4096 % 64, 0x80 + n / 64 % 64, 0x80 + n % 64]

/-- UTF-8 bytes of a string: the byte slice Rust's str::as_bytes yields. -/
def utf8Encode (s : String) : List Nat :=
  s.data.foldr (fun c acc => utf8EncodeChar c ++ acc) []

/-! ## The email lookup digest (src/database.rs)

Both call sites compute the digest with
`format!("{:x}", Sha256::digest(email.as_bytes()))`: `register` at
database.rs:314 and `authenticate_user` at database.rs:433.  Neither call
site folds the case of the input; each hashes the bytes exactly as
received. -/

/-- The email lookup digest as computed inside `Database::register`
(database.rs:314): SHA-256 of the raw email bytes, lower-hex encoded. -/
def register_email_hash (email : List Nat) : String := bytesToHex (sha256 email)

/-- The email lookup digest as computed inside `Database::authenticate_user`
(database.rs:433): SHA-256 of the raw email bytes, lower-hex encoded. -/
def authenticate_email_hash (email : List Nat) : String := bytesToHex (sha256 email)

/-- Claim C1, counterexample: the lookup-digest operation does not case-fold.
At the spec's own example pair, the digest of "A@x.com" differs from the
digest of "a@x.com", refuting the claim that digests of inputs differing
only in letter case are equal. -/
theorem c1_counterexample :
    register_email_hash (utf8Encode "A@x.com") ≠ register_email_hash (utf8Encode "a@x.com") := by
  decide

/-- Claim C1 (amended): the lookup-digest operation applies no normalization —
it hashes the submitted bytes as given, so the digests of "A@x.com" and
"a@x.com" differ — and it is deterministic: the register call site and the
login call site compute identical digests for every input (any case folding
happens in the HTTP layer before the digest is taken, cf. C10). -/
theorem c1_digest_unnormalized_deterministic :
    register_email_hash (utf8Encode "A@x.com") ≠ register_email_hash (utf8Encode "a@x.com")
      ∧ ∀ email : List Nat, register_email_hash email = authenticate_email_hash email :=
  ⟨by decide, fun _ => rfl⟩

/-! ## Base64 (base64 crate), at byte level

Rust strings are modelled throughout as their UTF-8 byte lists, so base64
text is a list of ASCII code points.  The repository uses two engines:
`general_purpose::STANDARD` (padded, canonical-padding decoding, trailing
bits rejected) in encryption.rs, and `URL_SAFE_NO_PAD` (unpadded, padding
rejected on decode, trailing bits rejected) inside the jsonwebtoken crate
used by jwt.rs. -/

/-- The standard base64 alphabet, as ASCII codes. -/
def stdB64Sym (n : Nat) : Nat :=
  if n < 26 then 65 + n
  else if n < 52 then 97 + n - 26
  else if n < 62 then 48 + n - 52
  else if n = 62 then 43 else 47

/-- Inverse of the standard base64 alphabet. -/
def stdB64Inv (b : Nat) : Option Nat :=
  if 65 ≤ b ∧ b ≤ 90 then some (b - 65)
  else if 97 ≤ b ∧ b ≤ 122 then some (b - 97 + 26)
  else if 48 ≤ b ∧ b ≤ 57 then some (b - 48 + 52)
  else if b = 43 then some 62
  else if b = 47 then some 63 else none

/-- The URL-safe base64 alphabet, as ASCII codes. -/
def urlB64Sym (n : Nat) : Nat :=
  if n < 26 then 65 + n
  else if n < 52 then 97 + n - 26
  else if n < 62 then 48 + n - 52
  else if n = 62 then 45 else 95

/-- Inverse of the URL-safe base64 alphabet. -/
def urlB64Inv (b : Nat) : Option Nat :=
  if 65 ≤ b ∧ b ≤ 90 then some (b - 65)
  else if 97 ≤ b ∧ b ≤ 122 then some (b - 97 + 26)
  else if 48 ≤ b ∧ b ≤ 57 then some (b - 48 + 52)
  else if b = 45 then some 62
  else if b = 95 then some 63 else none

/-- Base64 encoding body: three bytes become four symbols; a final group of
one or two bytes becomes two or three symbols (padding handled separately). -/
def b64EncodeCore (tbl : Nat → Nat) : List Nat → List Nat
  | b0 :: b1 :: b2 :: rest =>
      tbl (b0 / 4) :: tbl (b0 % 4 * 16 + b1 / 16) :: tbl (b1 % 16 * 4 + b2 / 64) ::
        tbl (b2 % 64) :: b64EncodeCore tbl rest
  | [b0, b1] => [tbl (b0 / 4), tbl (b0 % 4 * 16 + b1 / 16), tbl (b1 % 16 * 4)]
  | [b0] => [tbl (b0 / 4), tbl (b0 % 4 * 16)]
  | [] => []

/-- Padding symbols (ASCII 61, the equals sign) appended by a padded
base64 engine. -/
def stdPadChars (len : Nat) : List Nat :=
  match len % 3 with
  | 1 => [61, 61]
  | 2 => [61]
  | _ => []

/-- Base64 encoding with the standard alphabet and padding, as
`general_purpose::STANDARD.encode`. -/
def b64EncodeStd (bs : List Nat) : List Nat :=
  b64EncodeCore stdB64Sym bs ++ stdPadChars bs.length

/-- Base64 encoding with the URL-safe alphabet and no padding, as
`URL_SAFE_NO_PAD.encode`. -/
def b64EncodeUrl (bs : List Nat) : List Nat :=
  b64EncodeCore urlB64Sym bs

/-- Decoding for a padded canonical engine: input must consist of whole
quads, the padding symbol may appear only as canonical final padding, and
nonzero trailing bits are rejected. -/
def b64DecodeStd : List Nat → Option (List Nat)
  | [] => some []
  | c0 :: c1 :: c2 :: c3 :: rest =>
      match stdB64Inv c0, stdB64Inv c1 with
      | some v0, some v1 =>
          if c2 = 61 then
            if c3 = 61 ∧ rest = [] then
              if v1 % 16 = 0 then some [v0 * 4 + v1 / 16] else none
            else none
          else
            match stdB64Inv c2 with
            | some v2 =>
                if c3 = 61 then
                  if rest = [] then
                    if v2 % 4 = 0 then some [v0 * 4 + v1 / 16, v1 % 16 * 16 + v2 / 4] else none
                  else none
                else
                  match stdB64Inv c3 with
                  | some v3 =>
                      (b64DecodeStd rest).map fun tail =>
                        (v0 * 4 + v1 / 16) :: (v1 % 16 * 16 + v2 / 4) :: (v2 % 4 * 64 + v3) :: tail
                  | none => none
            | none => none
      | _, _ => none
  | _ => none

/-- Decoding for an unpadded engine: whole quads with a final group of two
or three symbols; the padding symbol is not in the alphabet so padded input
is rejected; nonzero trailing bits are rejected. -/
def b64DecodeUrl : List Nat → Option (List Nat)
  | [] => some []
  | [c0, c1] =>
      match urlB64Inv c0, urlB64Inv c1 with
      | some v0, some v1 => if v1 % 16 = 0 then some [v0 * 4 + v1 / 16] else none
      | _, _ => none
  | [c0, c1, c2] =>
      match urlB64Inv c0, urlB64Inv c1, urlB64Inv c2 with
      | some v0, some v1, some v2 =>
          if v2 % 4 = 0 then some [v0 * 4 + v1 / 16, v1 % 16 * 16 + v2 / 4] else none
      | _, _, _ => none
  | c0 :: c1 :: c2 :: c3 :: rest =>
      match urlB64Inv c0, urlB64Inv c1, urlB64Inv c2, urlB64Inv c3 with
      | some v0, some v1, some v2, some v3 =>
          (b64DecodeUrl rest).map fun tail =>
            (v0 * 4 + v1 / 16) :: (v1 % 16 * 16 + v2 / 4) :: (v2 % 4 * 64 + v3) :: tail
      | _, _, _, _ => none
  | _ => none

/-- Each standard-alphabet symbol decodes back to its index. -/
theorem stdB64Inv_sym : ∀ v, v < 64 → stdB64Inv (stdB64Sym v) = some v := by decide

/-- No standard-alphabet symbol is the padding symbol. -/
theorem stdB64Sym_ne_pad : ∀ v, v < 64 → stdB64Sym v ≠ 61 := by decide

/-- Each URL-safe-alphabet symbol decodes back to its index. -/
theorem urlB64Inv_sym : ∀ v, v < 64 → urlB64Inv (urlB64Sym v) = some v := by decide

/-- The padding tail of a list three bytes longer is unchanged. -/
theorem stdPadChars_add_three (n : Nat) : stdPadChars (n + 3) = stdPadChars n := by
  simp [stdPadChars, Nat.add_mod_right]

/-- Canonical padded base64 decoding undoes encoding (fuel-indexed form). -/
theorem b64DecodeStd_encode_aux :
    ∀ n bs, bs.length ≤ n → (∀ b ∈ bs, b < 256) →
      b64DecodeStd (b64EncodeCore stdB64Sym bs ++ stdPadChars bs.length) = some bs := by
  intro n
  induction n with
  | zero =>
      intro bs hlen _
      have : bs = [] := List.eq_nil_of_length_eq_zero (Nat.le_zero.mp hlen)
      subst this
      rfl
  | succ n ih =>
      intro bs hlen hb
      match bs with
      | [] => rfl
      | [b0] =>
          have hb0 : b0 < 256 := hb b0 (by simp)
          have h0 : stdB64Inv (stdB64Sym (b0 / 4)) = some (b0 / 4) :=
            stdB64Inv_sym _ (by omega)
          have h1 : stdB64Inv (stdB64Sym (b0 % 4 * 16)) = some (b0 % 4 * 16) :=
            stdB64Inv_sym _ (by omega)
          simp only [b64EncodeCore, stdPadChars, List.length_singleton, List.cons_append,
            List.nil_append, b64DecodeStd, h0, h1]
          simp only [show b0 % 4 * 16 % 16 = 0 from by omega, if_pos, and_self, if_true,
            reduceIte, Option.some.injEq, List.cons.injEq, and_true]
          omega
      | [b0, b1] =>
          have hb0 : b0 < 256 := hb b0 (by simp)
          have hb1 : b1 < 256 := hb b1 (by simp)
          have h0 : stdB64Inv (stdB64Sym (b0 / 4)) = some (b0 / 4) :=
            stdB64Inv_sym _ (by omega)
          have h1 : stdB64Inv (stdB64Sym (b0 % 4 * 16 + b1 / 16)) =
              some (b0 % 4 * 16 + b1 / 16) := stdB64Inv_sym _ (by omega)
          have h2 : stdB64Inv (stdB64Sym (b1 % 16 * 4)) = some (b1 % 16 * 4) :=
            stdB64Inv_sym _ (by omega)
          have hne : ¬ stdB64Sym (b1 % 16 * 4) = 61 := stdB64Sym_ne_pad _ (by omega)
          simp only [b64EncodeCore, stdPadChars, List.length_cons, List.length_nil,
            List.cons_append, List.nil_append, b64DecodeStd, h0, h1, h2, if_neg hne]
          simp only [show b1 % 16 * 4 % 4 = 0 from by omega, reduceIte,
            Option.some.injEq, List.cons.injEq, and_true]
          omega
      | b0 :: b1 :: b2 :: rest =>
          have hb0 : b0 < 256 := hb b0 (by simp)
          have hb1 : b1 < 256 := hb b1 (by simp)
          have hb2 : b2 < 256 := hb b2 (by simp)
          have h0 : stdB64Inv (stdB64Sym (b0 / 4)) = some (b0 / 4) :=
            stdB64Inv_sym _ (by omega)
          have h1 : stdB64Inv (stdB64Sym (b0 % 4 * 16 + b1 / 16)) =
              some (b0 % 4 * 16 + b1 / 16) := stdB64Inv_sym _ (by omega)
          have h2 : stdB64Inv (stdB64Sym (b1 % 16 * 4 + b2 / 64)) =
              some (b1 % 16 * 4 + b2 / 64) := stdB64Inv_sym _ (by omega)
          have h3 : stdB64Inv (stdB64Sym (b2 % 64)) = some (b2 % 64) :=
            stdB64Inv_sym _ (by omega)
          have hne2 : ¬ stdB64Sym (b1 % 16 * 4 + b2 / 64) = 61 :=
            stdB64Sym_ne_pad _ (by omega)
          have hne3 : ¬ stdB64Sym (b2 % 64) = 61 := stdB64Sym_ne_pad _ (by omega)
          have hrest := ih rest (by simp at hlen ⊢; omega) (fun b hbmem => hb b (by simp [hbmem]))
          have hlenrw : (b0 :: b1 :: b2 :: rest).length = rest.length + 3 := by
            simp only [List.length_cons]
          rw [hlenrw, stdPadChars_add_three]
          simp only [b64EncodeCore, List.cons_append, b64DecodeStd, h0, h1, h2, h3,
            List.append_eq, if_neg hne2, if_neg hne3, hrest, Option.map_some,
            Option.map_some', Option.some.injEq, List.cons.injEq, and_true]
          omega

/-- Unpadded URL-safe base64 decoding undoes encoding (fuel-indexed form). -/
theorem b64DecodeUrl_encode_aux :
    ∀ n bs, bs.length ≤ n → (∀ b ∈ bs, b < 256) →
      b64DecodeUrl (b64EncodeCore urlB64Sym bs) = some bs := by
  intro n
  induction n with
  | zero =>
      intro bs hlen _
      have : bs = [] := List.eq_nil_of_length_eq_zero (Nat.le_zero.mp hlen)
      subst this
      rfl
  | succ n ih =>
      intro bs hlen hb
      match bs with
      | [] => rfl
      | [b0] =>
          have hb0 : b0 < 256 := hb b0 (by simp)
          have h0 : urlB64Inv (urlB64Sym (b0 / 4)) = some (b0 / 4) :=
            urlB64Inv_sym _ (by omega)
          have h1 : urlB64Inv (urlB64Sym (b0 % 4 * 16)) = some (b0 % 4 * 16) :=
            urlB64Inv_sym _ (by omega)
          simp only [b64EncodeCore, b64DecodeUrl, h0, h1]
          simp only [show b0 % 4 * 16 % 16 = 0 from by omega, reduceIte,
            Option.some.injEq, List.cons.injEq, and_true]
          omega
      | [b0, b1] =>
          have hb0 : b0 < 256 := hb b0 (by simp)
          have hb1 : b1 < 256 := hb b1 (by simp)
          have h0 : urlB64Inv (urlB64Sym (b0 / 4)) = some (b0 / 4) :=
            urlB64Inv_sym _ (by omega)
          have h1 : urlB64Inv (urlB64Sym (b0 % 4 * 16 + b1 / 16)) =
              some (b0 % 4 * 16 + b1 / 16) := urlB64Inv_sym _ (by omega)
          have h2 : urlB64Inv (urlB64Sym (b1 % 16 * 4)) = some (b1 % 16 * 4) :=
            urlB64Inv_sym _ (by omega)
          simp only [b64EncodeCore, b64DecodeUrl, h0, h1, h2]
          simp only [show b1 % 16 * 4 % 4 = 0 from by omega, reduceIte,
            Option.some.injEq, List.cons.injEq, and_true]
          omega
      | b0 :: b1 :: b2 :: rest =>
          have hb0 : b0 < 256 := hb b0 (by simp)
          have hb1 : b1 < 256 := hb b1 (by simp)
          have hb2 : b2 < 256 := hb b2 (by simp)
          have h0 : urlB64Inv (urlB64Sym (b0 / 4)) = some (b0 / 4) :=
            urlB64Inv_sym _ (by omega)
          have h1 : urlB64Inv (urlB64Sym (b0 % 4 * 16 + b1 / 16)) =
              some (b0 % 4 * 16 + b1 / 16) := urlB64Inv_sym _ (by omega)
          have h2 : urlB64Inv (urlB64Sym (b1 % 16 * 4 + b2 / 64)) =
              some (b1 % 16 * 4 + b2 / 64) := urlB64Inv_sym _ (by omega)
          have h3 : urlB64Inv (urlB64Sym (b2 % 64)) = some (b2 % 64) :=
            urlB64Inv_sym _ (by omega)
          have hrest := ih rest (by simp at hlen ⊢; omega) (fun b hbmem => hb b (by simp [hbmem]))
          match hrone : b64EncodeCore urlB64Sym rest with
          | [] =>
              rw [hrone] at hrest
              simp only [b64DecodeUrl] at hrest
              simp only [b64EncodeCore, b64DecodeUrl, h0, h1, h2, h3, hrone, hrest,
                Option.map_some, Option.map_some', Option.some.injEq, List.cons.injEq, and_true]
              omega
          | c :: cs =>
              rw [hrone] at hrest
              simp only [b64EncodeCore, b64DecodeUrl, h0, h1, h2, h3, hrone, hrest,
                Option.map_some, Option.map_some', Option.some.injEq, List.cons.injEq, and_true]
              omega

/-- The padded standard engine decodes its own encoding of any byte string. -/
theorem b64DecodeStd_encode (bs : List Nat) (hb : ∀ b ∈ bs, b < 256) :
    b64DecodeStd (b64EncodeStd bs) = some bs :=
  b64DecodeStd_encode_aux bs.length bs le_rfl hb

/-- The unpadded URL-safe engine decodes its own encoding of any byte string. -/
theorem b64DecodeUrl_encode (bs : List Nat) (hb : ∀ b ∈ bs, b < 256) :
    b64DecodeUrl (b64EncodeUrl bs) = some bs :=
  b64DecodeUrl_encode_aux bs.length bs le_rfl hb

/-! ## ChaCha20-Poly1305 (RFC 8439), as used through the chacha20poly1305 crate -/

/-- Left rotation of a 32-bit word by `n` places. -/
def rotl32 (n x : Nat) : Nat := x % 2 ^ (32 - n) * 2 ^ n + x / 2 ^ (32 - n)

/-- The ChaCha quarter round acting on four positions of the 16-word state. -/
def chachaQR (st : List Nat) (ia ib ic id : Nat) : List Nat :=
  let a1 := add32 (st.getD ia 0) (st.getD ib 0)
  let d1 := rotl32 16 (xor32 (st.getD id 0) a1)
  let c1 := add32 (st.getD ic 0) d1
  let b1 := rotl32 12 (xor32 (st.getD ib 0) c1)
  let a2 := add32 a1 b1
  let d2 := rotl32 8 (xor32 d1 a2)
  let c2 := add32 c1 d2
  let b2 := rotl32 7 (xor32 b1 c2)
  (((st.set ia a2).set ib b2).set ic c2).set id d2

/-- One ChaCha double round: a column round then a diagonal round. -/
def chachaDoubleRound (st : List Nat) : List Nat :=
  let st1 := chachaQR st 0 4 8 12
  let st2 := chachaQR st1 1 5 9 13
  let st3 := chachaQR st2 2 6 10 14
  let st4 := chachaQR st3 3 7 11 15
  let st5 := chachaQR st4 0 5 10 15
  let st6 := chachaQR st5 1 6 11 12
  let st7 := chachaQR st6 2 7 8 13
  chachaQR st7 3 4 9 14

/-- Iterated double rounds. -/
def iterDoubleRounds : Nat → List Nat → List Nat
  | 0, st => st
  | n + 1, st => iterDoubleRounds n (chachaDoubleRound st)

/-- Little-endian packing of bytes into 32-bit words, four at a time. -/
def bytesToWordsLE : List Nat → List Nat
  | b0 :: b1 :: b2 :: b3 :: rest => (b0 + 256 * (b1 + 256 * (b2 + 256 * b3))) :: bytesToWordsLE rest
  | _ => []

/-- Little-endian bytes of a 32-bit word. -/
def wordToBytesLE (w : Nat) : List Nat :=
  [w % 256, w / 256 % 256, w / 65536 % 256, w / 16777216 % 256]

/-- The ChaCha20 block function: constants, 256-bit key, 32-bit counter and
96-bit nonce, ten double rounds, feed-forward addition, little-endian
serialization to 64 bytes. -/
def chachaBlock (key nonce : List Nat) (counter : Nat) : List Nat :=
  let st0 := [0x61707865, 0x3320646e, 0x79622d32, 0x6b206574] ++ bytesToWordsLE key ++
    counter % 4294967296 :: bytesToWordsLE nonce
  let stN := iterDoubleRounds 10 st0
  ((st0.zip stN).map fun p => add32 p.1 p.2).foldr (fun w acc => wordToBytesLE w ++ acc) []

/-- Keystream of `n` consecutive ChaCha20 blocks starting at the given
counter. -/
def chachaKeystream (key nonce : List Nat) : Nat → Nat → List Nat
  | 0, _ => []
  | n + 1, ctr => chachaBlock key nonce ctr ++ chachaKeystream key nonce n (ctr + 1)

/-- The Poly1305 prime. -/
def poly1305P : Nat := 2 ^ 130 - 5

/-- Little-endian number of a byte string. -/
def leNum : List Nat → Nat
  | [] => 0
  | b :: rest => b + 256 * leNum rest

/-- The `k` low-order bytes of a natural number, little endian. -/
def leBytes : Nat → Nat → List Nat
  | 0, _ => []
  | k + 1, n => n % 256 :: leBytes k (n / 256)

/-- The Poly1305 accumulator loop over 16-byte chunks, with the high bit
set above each chunk. -/
def poly1305Blocks (r : Nat) (acc : Nat) : List Nat → Nat
  | b0 :: b1 :: b2 :: b3 :: b4 :: b5 :: b6 :: b7 ::
    b8 :: b9 :: b10 :: b11 :: b12 :: b13 :: b14 :: b15 :: rest =>
      poly1305Blocks r
        ((acc + leNum [b0, b1, b2, b3, b4, b5, b6, b7, b8, b9, b10, b11, b12, b13, b14, b15] +
          2 ^ 128) * r % poly1305P) rest
  | [] => acc
  | chunk => (acc + leNum chunk + 2 ^ (8 * chunk.length)) * r % poly1305P

/-- Poly1305 with the 32-byte one-time key split into clamped `r` and `s`. -/
def poly1305 (key msg : List Nat) : List Nat :=
  let r := andAux 128 (leNum (key.take 16)) 0x0ffffffc0ffffffc0ffffffc0fffffff
  let s := leNum (key.drop 16)
  leBytes 16 (poly1305Blocks r 0 msg + s)

/-- Zero padding of a byte string to a 16-byte boundary. -/
def pad16 (l : List Nat) : List Nat := List.replicate ((16 - l.length % 16) % 16) 0

/-- The byte string authenticated by the ChaCha20-Poly1305 AEAD: associated
data and ciphertext, each zero-padded to 16 bytes, then their lengths as
64-bit little-endian integers. -/
def chachaPolyMacData (aad ct : List Nat) : List Nat :=
  aad ++ pad16 aad ++ ct ++ pad16 ct ++ leBytes 8 aad.length ++ leBytes 8 ct.length

/-- ChaCha20-Poly1305 encryption (no associated data): keystream starting at
counter one, Poly1305 key from block zero, tag appended to the ciphertext. -/
def chachaPolyEncrypt (key nonce pt : List Nat) : List Nat :=
  let polyKey := (chachaBlock key nonce 0).take 32
  let ct := List.zipWith xorByte pt (chachaKeystream key nonce (pt.length / 64 + 1) 1)
  ct ++ poly1305 polyKey (chachaPolyMacData [] ct)

/-- ChaCha20-Poly1305 decryption: reject when shorter than the tag, check
the recomputed tag, then unmask the ciphertext. -/
def chachaPolyDecrypt (key nonce data : List Nat) : Option (List Nat) :=
  if data.length < 16 then none
  else
    let ct := data.take (data.length - 16)
    let tag := data.drop (data.length - 16)
    let polyKey := (chachaBlock key nonce 0).take 32
    if poly1305 polyKey (chachaPolyMacData [] ct) = tag then
      some (List.zipWith xorByte ct (chachaKeystream key nonce (ct.length / 64 + 1) 1))
    else none

/-! Supporting lemmas for the round trip. -/

/-- Bitwise exclusive or is an involution up to the fuel-width mask. -/
theorem xorAux_xorAux (f : Nat) : ∀ p k, xorAux f (xorAux f p k) k = p % 2 ^ f := by
  induction f with
  | zero => intro p k; simp [xorAux, Nat.mod_one]
  | succ f ih =>
      intro p k
      have hb : bitXor1 p k ≤ 1 := by
        unfold bitXor1; split <;> omega
      have hsplit : (bitXor1 p k + 2 * xorAux f (p / 2) (k / 2)) / 2 = xorAux f (p / 2) (k / 2) := by
        omega
      have hmod : (bitXor1 p k + 2 * xorAux f (p / 2) (k / 2)) % 2 = bitXor1 p k := by
        omega
      have hfirst : bitXor1 (bitXor1 p k + 2 * xorAux f (p / 2) (k / 2)) k = p % 2 := by
        unfold bitXor1 at hmod ⊢
        rcases Nat.mod_two_eq_zero_or_one p with hp | hp <;>
          rcases Nat.mod_two_eq_zero_or_one k with hk | hk <;>
            simp [hp, hk] at hmod ⊢
      calc xorAux (f + 1) (xorAux (f + 1) p k) k
          = bitXor1 (bitXor1 p k + 2 * xorAux f (p / 2) (k / 2)) k +
            2 * xorAux f ((bitXor1 p k + 2 * xorAux f (p / 2) (k / 2)) / 2) (k / 2) := rfl
        _ = p % 2 + 2 * xorAux f (xorAux f (p / 2) (k / 2)) (k / 2) := by rw [hfirst, hsplit]
        _ = p % 2 + 2 * (p / 2 % 2 ^ f) := by rw [ih]
        _ = p % 2 ^ (f + 1) := by
            have hd : p % (2 * 2 ^ f) / 2 = p / 2 % 2 ^ f := Nat.mod_mul_right_div_self p 2 (2 ^ f)
            have hm : p % (2 * 2 ^ f) % 2 = p % 2 := Nat.mod_mod_of_dvd p ⟨2 ^ f, rfl⟩
            have hpow : (2 : Nat) ^ (f + 1) = 2 * 2 ^ f := by rw [Nat.pow_succ, Nat.mul_comm]
            rw [hpow]
            omega

/-- Byte exclusive or is an involution on bytes. -/
theorem xorByte_xorByte (p k : Nat) (hp : p < 256) : xorByte (xorByte p k) k = p := by
  have := xorAux_xorAux 8 p k
  simp only [xorByte]
  rw [this, show (2 : Nat) ^ 8 = 256 from rfl, Nat.mod_eq_of_lt hp]

/-- Unmasking a masked byte string with the same keystream restores it. -/
theorem zipWith_xorByte_cancel :
    ∀ pt ks : List Nat, (∀ b ∈ pt, b < 256) → pt.length ≤ ks.length →
      List.zipWith xorByte (List.zipWith xorByte pt ks) ks = pt := by
  intro pt
  induction pt with
  | nil => intro ks _ _; simp
  | cons p rest ih =>
      intro ks hb hlen
      match ks with
      | [] => simp at hlen
      | k :: krest =>
          simp only [List.zipWith_cons_cons]
          rw [xorByte_xorByte p k (hb p (by simp)), ih krest (fun b hbm => hb b (by simp [hbm]))
            (by simp at hlen; omega)]


/-- leBytes always yields the requested number of bytes. -/
theorem leBytes_length : ∀ k n, (leBytes k n).length = k := by
  intro k
  induction k with
  | zero => intro n; rfl
  | succ k ih => intro n; simp [leBytes, ih]

/-- Every byte of leBytes is below 256. -/
theorem leBytes_lt : ∀ k n, ∀ b ∈ leBytes k n, b < 256 := by
  intro k
  induction k with
  | zero => intro n b hb; simp [leBytes] at hb
  | succ k ih =>
      intro n b hb
      simp only [leBytes, List.mem_cons] at hb
      rcases hb with hb | hb
      · omega
      · exact ih _ b hb

/-- A Poly1305 tag is sixteen bytes. -/
theorem poly1305_length (key msg : List Nat) : (poly1305 key msg).length = 16 := by
  simp [poly1305, leBytes_length]

/-- Every byte of a Poly1305 tag is below 256. -/
theorem poly1305_lt (key msg : List Nat) : ∀ b ∈ poly1305 key msg, b < 256 := by
  intro b hb
  exact leBytes_lt 16 _ b hb

/-- Exclusive or over `f` bits is bounded by `2 ^ f`. -/
theorem xorAux_lt : ∀ f x y, xorAux f x y < 2 ^ f := by
  intro f
  induction f with
  | zero => intro x y; simp [xorAux]
  | succ f ih =>
      intro x y
      have hb : bitXor1 x y ≤ 1 := by unfold bitXor1; split <;> omega
      have := ih (x / 2) (y / 2)
      simp only [xorAux]
      rw [Nat.pow_succ]
      omega

/-- Every byte of a masked byte string is below 256. -/
theorem zipWith_xorByte_lt :
    ∀ xs ks : List Nat, ∀ b ∈ List.zipWith xorByte xs ks, b < 256 := by
  intro xs
  induction xs with
  | nil => intro ks b hb; simp at hb
  | cons x rest ih =>
      intro ks b hb
      match ks with
      | [] => simp at hb
      | k :: krest =>
          simp only [List.zipWith_cons_cons, List.mem_cons] at hb
          rcases hb with hb | hb
          · subst hb; exact xorAux_lt 8 x k
          · exact ih krest b hb

/-- Every byte of a little-endian word serialization fold is below 256. -/
theorem foldr_wordBytes_lt (ws : List Nat) :
    ∀ b ∈ ws.foldr (fun w acc => wordToBytesLE w ++ acc) [], b < 256 := by
  induction ws with
  | nil => intro b hb; simp at hb
  | cons w rest ih =>
      intro b hb
      simp only [List.foldr_cons, List.mem_append] at hb
      rcases hb with hb | hb
      · simp only [wordToBytesLE, List.mem_cons, List.not_mem_nil, or_false] at hb
        rcases hb with hb | hb | hb | hb <;> omega
      · exact ih b hb

/-- Every byte of a ChaCha20 block is below 256. -/
theorem chachaBlock_lt (key nonce : List Nat) (c : Nat) :
    ∀ b ∈ chachaBlock key nonce c, b < 256 := by
  intro b hb
  exact foldr_wordBytes_lt _ b hb

/-- Every byte of the ChaCha20 keystream is below 256. -/
theorem chachaKeystream_lt (key nonce : List Nat) :
    ∀ n c, ∀ b ∈ chachaKeystream key nonce n c, b < 256 := by
  intro n
  induction n with
  | zero => intro c b hb; simp [chachaKeystream] at hb
  | succ n ih =>
      intro c b hb
      simp only [chachaKeystream, List.mem_append] at hb
      rcases hb with hb | hb
      · exact chachaBlock_lt key nonce c b hb
      · exact ih (c + 1) b hb

/-- The quarter round preserves the state length. -/
theorem chachaQR_length (st : List Nat) (a b c d : Nat) :
    (chachaQR st a b c d).length = st.length := by
  simp [chachaQR, List.length_set]

/-- The double round preserves the state length. -/
theorem chachaDoubleRound_length (st : List Nat) :
    (chachaDoubleRound st).length = st.length := by
  simp [chachaDoubleRound, chachaQR_length]

/-- Iterated double rounds preserve the state length. -/
theorem iterDoubleRounds_length : ∀ n st, (iterDoubleRounds n st).length = st.length := by
  intro n
  induction n with
  | zero => intro st; rfl
  | succ n ih => intro st; rw [iterDoubleRounds, ih, chachaDoubleRound_length]

/-- Little-endian word packing yields one word per four bytes. -/
theorem bytesToWordsLE_length :
    ∀ n l, l.length ≤ n → (bytesToWordsLE l).length = l.length / 4 := by
  intro n
  induction n with
  | zero =>
      intro l hlen
      have : l = [] := List.eq_nil_of_length_eq_zero (Nat.le_zero.mp hlen)
      subst this; rfl
  | succ n ih =>
      intro l hlen
      match l with
      | [] => rfl
      | [b0] => simp [bytesToWordsLE]
      | [b0, b1] => simp [bytesToWordsLE]
      | [b0, b1, b2] => simp [bytesToWordsLE]
      | b0 :: b1 :: b2 :: b3 :: rest =>
          simp only [bytesToWordsLE, List.length_cons]
          rw [ih rest (by simp at hlen; omega)]
          omega

/-- The serialization fold yields four bytes per word. -/
theorem foldr_wordBytes_length (ws : List Nat) :
    (ws.foldr (fun w acc => wordToBytesLE w ++ acc) []).length = 4 * ws.length := by
  induction ws with
  | nil => rfl
  | cons w rest ih =>
      simp only [List.foldr_cons, List.length_append, ih]
      simp [wordToBytesLE]
      omega

/-- A ChaCha20 block of a 32-byte key and 12-byte nonce is 64 bytes. -/
theorem chachaBlock_length (key nonce : List Nat) (c : Nat)
    (hk : key.length = 32) (hn : nonce.length = 12) :
    (chachaBlock key nonce c).length = 64 := by
  have hkw : (bytesToWordsLE key).length = 8 := by
    rw [bytesToWordsLE_length key.length key le_rfl, hk]
  have hnw : (bytesToWordsLE nonce).length = 3 := by
    rw [bytesToWordsLE_length nonce.length nonce le_rfl, hn]
  simp only [chachaBlock, foldr_wordBytes_length, List.length_map, List.length_zip,
    List.length_append, List.length_cons, hkw, hnw, iterDoubleRounds_length]
  simp

/-- The keystream of `n` blocks is `64 * n` bytes. -/
theorem chachaKeystream_length (key nonce : List Nat)
    (hk : key.length = 32) (hn : nonce.length = 12) :
    ∀ n c, (chachaKeystream key nonce n c).length = 64 * n := by
  intro n
  induction n with
  | zero => intro c; rfl
  | succ n ih =>
      intro c
      simp only [chachaKeystream, List.length_append, ih, chachaBlock_length key nonce c hk hn]
      omega

/-! ## UTF-8 validity, modelling Rust String::from_utf8 acceptance -/

/-- UTF-8 validity automaton over bytes, fuel-indexed by the list length. -/
def isValidUtf8Fuel : Nat → List Nat → Bool
  | _, [] => true
  | 0, _ :: _ => false
  | fuel + 1, b0 :: rest =>
      if b0 < 0x80 then isValidUtf8Fuel fuel rest
      else if b0 < 0xc2 then false
      else if b0 < 0xe0 then
        match rest with
        | b1 :: rest2 => decide (0x80 ≤ b1 ∧ b1 ≤ 0xbf) && isValidUtf8Fuel fuel rest2
        | [] => false
      else if b0 < 0xf0 then
        match rest with
        | b1 :: b2 :: rest2 =>
            decide ((if b0 = 0xe0 then 0xa0 else 0x80) ≤ b1 ∧
              b1 ≤ if b0 = 0xed then 0x9f else 0xbf) &&
              decide (0x80 ≤ b2 ∧ b2 ≤ 0xbf) && isValidUtf8Fuel fuel rest2
        | _ => false
      else if b0 ≤ 0xf4 then
        match rest with
        | b1 :: b2 :: b3 :: rest2 =>
            decide ((if b0 = 0xf0 then 0x90 else 0x80) ≤ b1 ∧
              b1 ≤ if b0 = 0xf4 then 0x8f else 0xbf) &&
              decide (0x80 ≤ b2 ∧ b2 ≤ 0xbf) && decide (0x80 ≤ b3 ∧ b3 ≤ 0xbf) &&
              isValidUtf8Fuel fuel rest2
        | _ => false
      else false

/-- Whether a byte string is valid UTF-8, i.e. Rust String::from_utf8
succeeds on it. -/
def isValidUtf8 (bs : List Nat) : Bool := isValidUtf8Fuel bs.length bs

/-! ## src/encryption.rs -/

/-- The error enum of src/errors/custom_errors.rs. -/
inductive CustomError where
  | unknown
  | userAlreadyExists
  | hashingError
  | encryptionError
  | decryptionError
  | databaseError (msg : String)
  | invalidPassword
  | userNotFound
  | tracingInitializationError (msg : String)
  | actixWebBindingError (msg : String)
  | actixWebRuntimeError (msg : String)
  | environmentVariableError (msg : String)
  | parsingServerPortError (msg : String)
  | governorCreationError (msg : String)
deriving DecidableEq

/-- Models `generate_key` (encryption.rs:21-46).  The environment is passed
explicitly: `none` is an absent `ENCRYPTION_KEY`, `some secret` its UTF-8
bytes.  The key starts as 32 zero bytes and each of the first 32 positions
is overwritten from the secret while it lasts, which pads short secrets
with zeros and truncates long ones; a warning is only logged, never an
error. -/
def generate_key (env : Option (List Nat)) : Except CustomError (List Nat) :=
  match env with
  | none => .error (.environmentVariableError "environment variable not found")
  | some secret =>
      .ok ((List.range 32).map fun i => if i < secret.length then secret.getD i 0 else 0)

/-- Models `encrypt_with_random_nonce` (encryption.rs:112-136): the freshly
drawn random nonce is an explicit argument; the result is the base64
encoding of nonce concatenated with ciphertext-plus-tag. -/
def encrypt_with_random_nonce (key nonce plaintext : List Nat) :
    Except CustomError (List Nat) :=
  .ok (b64EncodeStd (nonce ++ chachaPolyEncrypt key nonce plaintext))

/-- Outcome of a Rust call that can also panic. -/
inductive DecryptResult where
  | panicked
  | err (e : CustomError)
  | ok (plaintext : List Nat)
deriving DecidableEq

/-- Models `decrypt_with_nonce` (encryption.rs:148-169): base64-decode
(failure mapped to `DecryptionError`), then `split_at(12)` — which panics
when the decoded input is shorter than 12 bytes — then authenticated
decryption and a UTF-8 check, both of whose failures are mapped to
`DecryptionError`. -/
def decrypt_with_nonce (key combined_base64 : List Nat) : DecryptResult :=
  match b64DecodeStd combined_base64 with
  | none => .err .decryptionError
  | some combined =>
      if combined.length < 12 then .panicked
      else
        match chachaPolyDecrypt key (combined.take 12) (combined.drop 12) with
        | none => .err .decryptionError
        | some ptBytes =>
            if isValidUtf8 ptBytes then .ok ptBytes else .err .decryptionError

/-- Claim C6: with the secret present, `generate_key` never fails and the
key is the secret verbatim when exactly 32 bytes, the secret zero-padded to
32 bytes when shorter, and the first 32 bytes when longer; it fails, with
the environment-variable error, only when the secret is absent. -/
theorem c6_generate_key_pad_truncate :
    (∀ secret : List Nat,
      generate_key (some secret) = .ok ((secret ++ List.replicate 32 0).take 32) ∧
      (secret.length = 32 → (secret ++ List.replicate 32 0).take 32 = secret) ∧
      (secret.length < 32 →
        (secret ++ List.replicate 32 0).take 32 =
          secret ++ List.replicate (32 - secret.length) 0) ∧
      (32 < secret.length →
        (secret ++ List.replicate 32 0).take 32 = secret.take 32)) ∧
    generate_key none = .error (.environmentVariableError "environment variable not found") := by
  refine ⟨fun secret => ⟨?_, ?_, ?_, ?_⟩, rfl⟩
  · simp only [generate_key, Except.ok.injEq]
    apply List.ext_getElem
    · simp only [List.length_map, List.length_range, List.length_take, List.length_append,
        List.length_replicate]
      omega
    · intro i h1 h2
      simp only [List.getElem_map, List.getElem_range, List.getElem_take]
      by_cases hi : i < secret.length
      · rw [if_pos hi, List.getElem_append_left hi, List.getD_eq_getElem secret 0 hi]
      · rw [if_neg hi, List.getElem_append_right (by omega)]
        simp only [List.getElem_replicate]
  · intro h
    exact List.take_left' h
  · intro h
    rw [List.take_append_eq_append_take, List.take_of_length_le (by omega),
      List.take_replicate, show min (32 - secret.length) 32 = 32 - secret.length from by omega]
  · intro h
    rw [List.take_append_eq_append_take, show 32 - secret.length = 0 from by omega]
    simp

/-- Witness for C6 at concrete secrets: a six-byte secret is zero-padded to
32 bytes, and an absent secret is the environment-variable error. -/
theorem c6_generate_key_pad_truncate_witness :
    generate_key (some (utf8Encode "secret")) =
      .ok (utf8Encode "secret" ++ List.replicate 26 0) ∧
    generate_key none = .error (.environmentVariableError "environment variable not found") := by
  obtain ⟨hall, hnone⟩ := c6_generate_key_pad_truncate
  obtain ⟨hok, _, hshort, _⟩ := hall (utf8Encode "secret")
  refine ⟨?_, hnone⟩
  rw [hok, hshort (by decide)]
  norm_num
  decide

/-- Claim C2 (as the code actually behaves): when the base64 input decodes
to fewer than 12 bytes, `decrypt_with_nonce` panics in `split_at` instead
of returning the decryption error. -/
theorem c2_short_input_panics :
    ∀ (key input decoded : List Nat), b64DecodeStd input = some decoded →
      decoded.length < 12 → decrypt_with_nonce key input = .panicked := by
  intro key input decoded hdec hlen
  simp [decrypt_with_nonce, hdec, if_pos hlen]

/-- Witness for C2: the four-character base64 text QQ== decodes to the
single byte 65, and decryption of it panics for any key (here the all-zero
key). -/
theorem c2_short_input_panics_witness :
    b64DecodeStd (utf8Encode "QQ==") = some [65] ∧ ([65] : List Nat).length < 12 ∧
    decrypt_with_nonce (List.replicate 32 0) (utf8Encode "QQ==") = .panicked :=
  ⟨by decide, by decide,
    c2_short_input_panics (List.replicate 32 0) _ [65] (by decide) (by decide)⟩

/-- The masked byte string has the plaintext's length. -/
theorem chachaCt_length (key nonce pt : List Nat) (hk : key.length = 32)
    (hn : nonce.length = 12) :
    (List.zipWith xorByte pt (chachaKeystream key nonce (pt.length / 64 + 1) 1)).length =
      pt.length := by
  rw [List.length_zipWith, chachaKeystream_length key nonce hk hn]
  omega

/-- Authenticated decryption undoes authenticated encryption under the same
key and nonce. -/
theorem chachaPolyDecrypt_encrypt (key nonce pt : List Nat)
    (hk : key.length = 32) (hn : nonce.length = 12) (hpt : ∀ b ∈ pt, b < 256) :
    chachaPolyDecrypt key nonce (chachaPolyEncrypt key nonce pt) = some pt := by
  unfold chachaPolyEncrypt chachaPolyDecrypt
  have hctlen := chachaCt_length key nonce pt hk hn
  have htagl := poly1305_length ((chachaBlock key nonce 0).take 32)
    (chachaPolyMacData []
      (List.zipWith xorByte pt (chachaKeystream key nonce (pt.length / 64 + 1) 1)))
  have hlen :
      (List.zipWith xorByte pt (chachaKeystream key nonce (pt.length / 64 + 1) 1) ++
        poly1305 ((chachaBlock key nonce 0).take 32)
          (chachaPolyMacData []
            (List.zipWith xorByte pt
              (chachaKeystream key nonce (pt.length / 64 + 1) 1)))).length =
        pt.length + 16 := by
    rw [List.length_append, hctlen, htagl]
  rw [hlen, if_neg (by omega), show pt.length + 16 - 16 = pt.length from by omega]
  rw [List.take_left' hctlen, List.drop_left' hctlen, if_pos rfl, hctlen]
  exact congrArg some (zipWith_xorByte_cancel pt _ hpt
    (by rw [chachaKeystream_length key nonce hk hn]; omega))

/-- Every byte of the authenticated ciphertext is below 256. -/
theorem chachaPolyEncrypt_lt (key nonce pt : List Nat) :
    ∀ b ∈ chachaPolyEncrypt key nonce pt, b < 256 := by
  intro b hb
  unfold chachaPolyEncrypt at hb
  rcases List.mem_append.mp hb with hb | hb
  · exact zipWith_xorByte_lt _ _ b hb
  · exact poly1305_lt _ _ b hb

/-- Claim C4: for every 32-byte key, every 12-byte fresh nonce and every
plaintext (a Rust string, i.e. valid UTF-8 bytes), decrypting the field
produced by encryption under that key returns exactly the plaintext. -/
theorem c4_encrypt_decrypt_roundtrip :
    ∀ key nonce pt field : List Nat,
      key.length = 32 → nonce.length = 12 → (∀ b ∈ nonce, b < 256) →
      (∀ b ∈ pt, b < 256) → isValidUtf8 pt = true →
      encrypt_with_random_nonce key nonce pt = .ok field →
      decrypt_with_nonce key field = .ok pt := by
  intro key nonce pt field hk hn hnb hptb hvalid henc
  have hfield : field = b64EncodeStd (nonce ++ chachaPolyEncrypt key nonce pt) := by
    have h := henc
    simp only [encrypt_with_random_nonce, Except.ok.injEq] at h
    exact h.symm
  subst hfield
  have hcomb :
      b64DecodeStd (b64EncodeStd (nonce ++ chachaPolyEncrypt key nonce pt)) =
        some (nonce ++ chachaPolyEncrypt key nonce pt) := by
    refine b64DecodeStd_encode _ fun b hb => ?_
    rcases List.mem_append.mp hb with hb | hb
    · exact hnb b hb
    · exact chachaPolyEncrypt_lt key nonce pt b hb
  simp only [decrypt_with_nonce, hcomb]
  have hlen : (nonce ++ chachaPolyEncrypt key nonce pt).length =
      12 + (chachaPolyEncrypt key nonce pt).length := by
    rw [List.length_append, hn]
  rw [if_neg (by omega), List.take_left' hn, List.drop_left' hn,
    chachaPolyDecrypt_encrypt key nonce pt hk hn hptb]
  simp [hvalid]

/-- Witness for C4 at a concrete key, nonce and plaintext: decrypting the
encryption of the string secret message returns it exactly. -/
theorem c4_encrypt_decrypt_roundtrip_witness :
    decrypt_with_nonce (List.replicate 32 7)
      (b64EncodeStd (List.replicate 12 3 ++
        chachaPolyEncrypt (List.replicate 32 7) (List.replicate 12 3)
          (utf8Encode "secret message"))) = .ok (utf8Encode "secret message") :=
  c4_encrypt_decrypt_roundtrip (List.replicate 32 7) (List.replicate 12 3)
    (utf8Encode "secret message") _ (by decide) (by decide) (by decide) (by decide)
    (by decide) rfl

/-! ## JSON fragments used by the jsonwebtoken crate (serde_json) -/

/-- Lowercase hexadecimal digit as an ASCII byte. -/
def hexByte (n : Nat) : Nat := if n < 10 then 48 + n else 87 + n

/-- The serde_json escape of one byte of a JSON string: quote and backslash
escaped, the five short control escapes, other control bytes as a lowercase
unicode escape, everything else verbatim. -/
def jsonEscapeByte (b : Nat) : List Nat :=
  if b = 34 then [92, 34]
  else if b = 92 then [92, 92]
  else if b = 8 then [92, 98]
  else if b = 9 then [92, 116]
  else if b = 10 then [92, 110]
  else if b = 12 then [92, 102]
  else if b = 13 then [92, 114]
  else if b < 32 then [92, 117, 48, 48, hexByte (b / 16), hexByte (b % 16)]
  else [b]

/-- serde_json escaping of a JSON string body, bytewise. -/
def jsonEscape (s : List Nat) : List Nat := s.foldr (fun b acc => jsonEscapeByte b ++ acc) []

/-- Decimal digits of a natural number, most significant first, as ASCII
bytes (fuel-indexed). -/
def decDigits : Nat → Nat → List Nat
  | 0, _ => []
  | f + 1, n => if n < 10 then [48 + n] else decDigits f (n / 10) ++ [48 + n % 10]

/-- Decimal rendering of a natural number as serde_json prints it. -/
def natToDecimal (n : Nat) : List Nat := decDigits (n + 1) n

/-- Hexadecimal digit parsing, accepting both cases. -/
def parseHexDigit (b : Nat) : Option Nat :=
  if 48 ≤ b ∧ b ≤ 57 then some (b - 48)
  else if 97 ≤ b ∧ b ≤ 102 then some (b - 87)
  else if 65 ≤ b ∧ b ≤ 70 then some (b - 55) else none

/-- Four-hex-digit unicode escape body: the code point and the remaining
input. -/
def parseUnicodeEscape (bs : List Nat) : Option (Nat × List Nat) :=
  match bs with
  | h1 :: h2 :: h3 :: h4 :: rest =>
      match parseHexDigit h1, parseHexDigit h2, parseHexDigit h3, parseHexDigit h4 with
      | some v1, some v2, some v3, some v4 =>
          some (((v1 * 16 + v2) * 16 + v3) * 16 + v4, rest)
      | _, _, _, _ => none
  | _ => none

/-- JSON string body parsing up to the closing quote, undoing the escapes
serde_json understands on ASCII-range code points (the only ones the
serializer modelled here emits); unescaped control bytes are rejected. -/
def parseJsonStringAux : Nat → List Nat → Option (List Nat × List Nat)
  | 0, _ => none
  | _ + 1, [] => none
  | fuel + 1, b :: rest =>
      if b = 34 then some ([], rest)
      else if b = 92 then
        match rest with
        | [] => none
        | e :: rest2 =>
            if e = 34 ∨ e = 92 ∨ e = 47 then
              (parseJsonStringAux fuel rest2).map fun p => (e :: p.1, p.2)
            else if e = 98 then (parseJsonStringAux fuel rest2).map fun p => (8 :: p.1, p.2)
            else if e = 116 then (parseJsonStringAux fuel rest2).map fun p => (9 :: p.1, p.2)
            else if e = 110 then (parseJsonStringAux fuel rest2).map fun p => (10 :: p.1, p.2)
            else if e = 102 then (parseJsonStringAux fuel rest2).map fun p => (12 :: p.1, p.2)
            else if e = 114 then (parseJsonStringAux fuel rest2).map fun p => (13 :: p.1, p.2)
            else if e = 117 then
              match parseUnicodeEscape rest2 with
              | some (n, rest3) =>
                  if n < 128 then
                    (parseJsonStringAux fuel rest3).map fun p => (n :: p.1, p.2)
                  else none
              | none => none
            else none
      else if b < 32 then none
      else (parseJsonStringAux fuel rest).map fun p => (b :: p.1, p.2)

/-- Digit-run parsing with an accumulator; stops at the first non-digit. -/
def parseDigitsAux : Nat → Nat → List Nat → Nat × List Nat
  | 0, acc, bs => (acc, bs)
  | _ + 1, acc, [] => (acc, [])
  | fuel + 1, acc, b :: bs =>
      if 48 ≤ b ∧ b ≤ 57 then parseDigitsAux fuel (acc * 10 + (b - 48)) bs else (acc, b :: bs)

/-- Parsing of a JSON number (a nonempty digit run). -/
def parseNat (bs : List Nat) : Option (Nat × List Nat) :=
  match bs with
  | b :: _ => if 48 ≤ b ∧ b ≤ 57 then some (parseDigitsAux bs.length 0 bs) else none
  | [] => none

/-- Literal matching: drops an expected byte sequence, returning the rest. -/
def dropLit : List Nat → List Nat → Option (List Nat)
  | [], rest => some rest
  | p :: ps, b :: bs => if b = p then dropLit ps bs else none
  | _ :: _, [] => none

/-! Round trips of the JSON fragments. -/

/-- Parsing a hex digit undoes printing one. -/
theorem parseHexDigit_hexByte : ∀ v, v < 16 → parseHexDigit (hexByte v) = some v := by decide

/-- A printed two-digit unicode escape body parses back to its byte. -/
theorem parseUnicodeEscape_hexByte (b : Nat) (hb : b < 256) (rest : List Nat) :
    parseUnicodeEscape (48 :: 48 :: hexByte (b / 16) :: hexByte (b % 16) :: rest) =
      some (b, rest) := by
  have h1 := parseHexDigit_hexByte (b / 16) (by omega)
  have h2 := parseHexDigit_hexByte (b % 16) (by omega)
  simp only [parseUnicodeEscape, h1, h2, show parseHexDigit 48 = some 0 from by decide,
    Option.some.injEq, Prod.mk.injEq, and_true]
  omega

/-- Dropping a literal from itself plus a tail yields the tail. -/
theorem dropLit_append : ∀ lit rest : List Nat, dropLit lit (lit ++ rest) = some rest := by
  intro lit
  induction lit with
  | nil => intro rest; rfl
  | cons p ps ih => intro rest; simp [dropLit, ih]

/-- The string parser undoes serde escaping and stops at the closing
quote. -/
theorem parseJsonString_escape :
    ∀ s rest fuel, (∀ b ∈ s, b < 256) → (jsonEscape s).length + 1 ≤ fuel →
      parseJsonStringAux fuel (jsonEscape s ++ 34 :: rest) = some (s, rest) := by
  intro s
  induction s with
  | nil =>
      intro rest fuel _ hfuel
      match fuel with
      | f + 1 => rfl
  | cons b tail ih =>
      intro rest fuel hb hfuel
      have hblt : b < 256 := hb b (by simp)
      have htail : ∀ x ∈ tail, x < 256 := fun x hx => hb x (by simp [hx])
      have hlen : (jsonEscape (b :: tail)).length =
          (jsonEscapeByte b).length + (jsonEscape tail).length := by
        simp [jsonEscape]
      have hone : 1 ≤ (jsonEscapeByte b).length := by
        unfold jsonEscapeByte
        split <;> try simp
        split <;> try simp
        split <;> try simp
        split <;> try simp
        split <;> try simp
        split <;> try simp
        split <;> try simp
        split <;> simp
      match fuel with
      | 0 => omega
      | fuel + 1 =>
          have hparse := ih rest fuel htail (by omega)
          have hesc : jsonEscape (b :: tail) ++ 34 :: rest =
              jsonEscapeByte b ++ (jsonEscape tail ++ 34 :: rest) := by
            simp [jsonEscape]
          rw [hesc]
          by_cases h34 : b = 34
          · subst h34
            simp only [jsonEscapeByte, reduceIte, List.cons_append, List.nil_append,
              parseJsonStringAux]
            norm_num [hparse]
          · by_cases h92 : b = 92
            · subst h92
              simp only [jsonEscapeByte, reduceIte, List.cons_append, List.nil_append,
                parseJsonStringAux]
              norm_num [hparse]
            · by_cases h8 : b = 8
              · subst h8
                simp only [jsonEscapeByte, reduceIte, List.cons_append, List.nil_append,
                  parseJsonStringAux]
                norm_num [hparse]
              · by_cases h9 : b = 9
                · subst h9
                  simp only [jsonEscapeByte, reduceIte, List.cons_append, List.nil_append,
                    parseJsonStringAux]
                  norm_num [hparse]
                · by_cases h10 : b = 10
                  · subst h10
                    simp only [jsonEscapeByte, reduceIte, List.cons_append, List.nil_append,
                      parseJsonStringAux]
                    norm_num [hparse]
                  · by_cases h12 : b = 12
                    · subst h12
                      simp only [jsonEscapeByte, reduceIte, List.cons_append, List.nil_append,
                        parseJsonStringAux]
                      norm_num [hparse]
                    · by_cases h13 : b = 13
                      · subst h13
                        simp only [jsonEscapeByte, reduceIte, List.cons_append,
                          List.nil_append, parseJsonStringAux]
                        norm_num [hparse]
                      · by_cases hctl : b < 32
                        · have hescb : jsonEscapeByte b =
                              [92, 117, 48, 48, hexByte (b / 16), hexByte (b % 16)] := by
                            unfold jsonEscapeByte
                            rw [if_neg h34, if_neg h92, if_neg h8, if_neg h9, if_neg h10,
                              if_neg h12, if_neg h13, if_pos hctl]
                          have hu := parseUnicodeEscape_hexByte b hblt
                            (jsonEscape tail ++ 34 :: rest)
                          have h128 : b < 128 := by omega
                          rw [hescb]
                          simp only [List.cons_append, List.nil_append, List.append_eq,
                            parseJsonStringAux]
                          norm_num [hu, h128, hparse]
                        · have hescb : jsonEscapeByte b = [b] := by
                            unfold jsonEscapeByte
                            rw [if_neg h34, if_neg h92, if_neg h8, if_neg h9, if_neg h10,
                              if_neg h12, if_neg h13, if_neg hctl]
                          rw [hescb]
                          simp only [List.cons_append, List.nil_append, List.append_eq,
                            parseJsonStringAux]
                          rw [if_neg h34, if_neg h92, if_neg (by omega : ¬ b < 32)]
                          norm_num [hparse]

/-- Digits printed by decDigits are decimal ASCII digits. -/
theorem decDigits_mem : ∀ f n, ∀ d ∈ decDigits f n, 48 ≤ d ∧ d ≤ 57 := by
  intro f
  induction f with
  | zero => intro n d hd; simp [decDigits] at hd
  | succ f ih =>
      intro n d hd
      simp only [decDigits] at hd
      by_cases h : n < 10
      · rw [if_pos h] at hd
        simp at hd
        omega
      · rw [if_neg h] at hd
        rcases List.mem_append.mp hd with hd | hd
        · exact ih (n / 10) d hd
        · simp at hd
          omega

/-- decDigits is nonempty when given positive fuel. -/
theorem decDigits_ne_nil : ∀ f n, decDigits (f + 1) n ≠ [] := by
  intro f n
  simp only [decDigits]
  by_cases h : n < 10
  · rw [if_pos h]; simp
  · rw [if_neg h]; simp

/-- Folding the digit-accumulator over printed digits recovers the number. -/
theorem decDigits_foldl :
    ∀ f n acc, n < 10 ^ f →
      List.foldl (fun a d => a * 10 + (d - 48)) acc (decDigits f n) =
        acc * 10 ^ (decDigits f n).length + n := by
  intro f
  induction f with
  | zero => intro n acc h; interval_cases n; simp [decDigits]
  | succ f ih =>
      intro n acc h
      simp only [decDigits]
      by_cases hn : n < 10
      · rw [if_pos hn]
        simp
      · rw [if_neg hn]
        have hdiv : n / 10 < 10 ^ f := by
          rw [Nat.pow_succ] at h
          omega
        rw [List.foldl_append, ih (n / 10) acc hdiv]
        simp only [List.foldl_cons, List.foldl_nil, List.length_append, List.length_cons,
          List.length_nil]
        rw [Nat.pow_succ]
        have : 48 + n % 10 - 48 = n % 10 := by omega
        rw [this]
        ring_nf
        omega

/-- The digit-run parser consumes exactly a run of digits and stops before a
non-digit (or the end). -/
theorem parseDigitsAux_run :
    ∀ ds rest acc fuel, (∀ d ∈ ds, 48 ≤ d ∧ d ≤ 57) → ds.length ≤ fuel →
      (∀ r, rest.head? = some r → ¬(48 ≤ r ∧ r ≤ 57)) →
      parseDigitsAux fuel acc (ds ++ rest) =
        (List.foldl (fun a d => a * 10 + (d - 48)) acc ds, rest) := by
  intro ds
  induction ds with
  | nil =>
      intro rest acc fuel _ _ hrest
      match fuel, rest with
      | 0, rest => rfl
      | fuel + 1, [] => rfl
      | fuel + 1, r :: rs =>
          have := hrest r rfl
          simp only [List.nil_append, parseDigitsAux, if_neg this, List.foldl_nil]
  | cons d ds ih =>
      intro rest acc fuel hds hfuel hrest
      match fuel with
      | 0 => simp at hfuel
      | fuel + 1 =>
          have hd : 48 ≤ d ∧ d ≤ 57 := hds d (by simp)
          simp only [List.cons_append, parseDigitsAux, if_pos hd, List.foldl_cons]
          exact ih rest _ fuel (fun x hx => hds x (by simp [hx])) (by simp at hfuel; omega) hrest

/-- Parsing a printed number yields the number and stops before the
following non-digit. -/
theorem parseNat_natToDecimal (n : Nat) (rest : List Nat)
    (hrest : ∀ r, rest.head? = some r → ¬(48 ≤ r ∧ r ≤ 57)) :
    parseNat (natToDecimal n ++ rest) = some (n, rest) := by
  have hne := decDigits_ne_nil n n
  have hmem := decDigits_mem (n + 1) n
  have hrun := parseDigitsAux_run (decDigits (n + 1) n) rest 0
    ((decDigits (n + 1) n ++ rest).length) hmem (by simp) hrest
  have hfold := decDigits_foldl (n + 1) n 0 (by
    calc n < 10 ^ n := Nat.lt_pow_self (by omega) n
    _ ≤ 10 ^ (n + 1) := Nat.pow_le_pow_right (by omega) (by omega))
  match hdd : decDigits (n + 1) n with
  | [] => exact absurd hdd hne
  | d :: ds =>
      have hdmem : 48 ≤ d ∧ d ≤ 57 := hmem d (by rw [hdd]; simp)
      simp only [natToDecimal, hdd, List.cons_append, parseNat, if_pos hdmem]
      rw [hdd] at hrun hfold
      simp only [List.cons_append] at hrun
      rw [hrun, hfold]
      simp

/-! ## src/jwt.rs -/

/-- The claims stored within a JWT (jwt.rs:12-19): subject (the Rust
String as UTF-8 bytes), expiry and issued-at timestamps. -/
structure Claims where
  sub : List Nat
  exp : Nat
  iat : Nat
deriving DecidableEq

/-- serde_json serialization of `Claims`, fields in declaration order. -/
def claimsJson (c : Claims) : List Nat :=
  utf8Encode "\x7b\"sub\":\"" ++ jsonEscape c.sub ++ utf8Encode "\",\"exp\":" ++
    natToDecimal c.exp ++ utf8Encode ",\"iat\":" ++ natToDecimal c.iat ++ [125]

/-- serde_json deserialization of `Claims` from the shape its serializer
produces (field order sub, exp, iat; no surrounding whitespace), which is
the only shape the round-trip and expiry claims depend on. -/
def jsonParseClaims (bs : List Nat) : Option Claims :=
  match dropLit (utf8Encode "\x7b\"sub\":\"") bs with
  | none => none
  | some r1 =>
      match parseJsonStringAux r1.length r1 with
      | none => none
      | some (sub, r2) =>
          match dropLit (utf8Encode ",\"exp\":") r2 with
          | none => none
          | some r3 =>
              match parseNat r3 with
              | none => none
              | some (exp, r4) =>
                  match dropLit (utf8Encode ",\"iat\":") r4 with
                  | none => none
                  | some r5 =>
                      match parseNat r5 with
                      | none => none
                      | some (iat, r6) =>
                          if r6 = [125] then some ⟨sub, exp, iat⟩ else none

/-- The serde_json serialization of `Header::default()` in jsonwebtoken:
type JWT, algorithm HS256. -/
def headerJson : List Nat := utf8Encode "\x7b\"typ\":\"JWT\",\"alg\":\"HS256\"\x7d"

/-- Extraction of the algorithm field from a serialized header, on the
shape the jsonwebtoken default header serializes to. -/
def parseHeaderAlg (bs : List Nat) : Option (List Nat) :=
  match dropLit (utf8Encode "\x7b\"typ\":\"JWT\",\"alg\":\"") bs with
  | none => none
  | some r1 =>
      match parseJsonStringAux r1.length r1 with
      | none => none
      | some (alg, r2) => if r2 = [125] then some alg else none

/-- Parsing the serialized claims recovers them. -/
theorem jsonParseClaims_claimsJson (c : Claims) (hsub : ∀ b ∈ c.sub, b < 256) :
    jsonParseClaims (claimsJson c) = some c := by
  have hq : utf8Encode "\",\"exp\":" = 34 :: utf8Encode ",\"exp\":" := by decide
  have hsplit : claimsJson c =
      utf8Encode "\x7b\"sub\":\"" ++
        (jsonEscape c.sub ++ 34 :: (utf8Encode ",\"exp\":" ++
          (natToDecimal c.exp ++ (utf8Encode ",\"iat\":" ++
            (natToDecimal c.iat ++ [125]))))) := by
    simp only [claimsJson, hq]
    simp
  have hstr := parseJsonString_escape c.sub
    (utf8Encode ",\"exp\":" ++ (natToDecimal c.exp ++ (utf8Encode ",\"iat\":" ++
      (natToDecimal c.iat ++ [125]))))
    ((jsonEscape c.sub ++ 34 :: (utf8Encode ",\"exp\":" ++
      (natToDecimal c.exp ++ (utf8Encode ",\"iat\":" ++
        (natToDecimal c.iat ++ [125]))))).length)
    hsub (by simp)
  have hcomma : utf8Encode ",\"iat\":" = 44 :: utf8Encode "\"iat\":" := by decide
  have hexp := parseNat_natToDecimal c.exp
    (utf8Encode ",\"iat\":" ++ (natToDecimal c.iat ++ [125]))
    (by
      intro r hr
      rw [hcomma] at hr
      simp at hr
      omega)
  have hiat := parseNat_natToDecimal c.iat [125]
    (by
      intro r hr
      simp at hr
      omega)
  simp only [jsonParseClaims, hsplit, dropLit_append, hstr, hexp, hiat, reduceIte]

/-- HMAC-SHA256 (RFC 2104): the signer jsonwebtoken uses for HS256. -/
def hmacSha256 (key msg : List Nat) : List Nat :=
  let k0 := if 64 < key.length then sha256 key else key
  let kpad := k0 ++ List.replicate (64 - k0.length) 0
  sha256 (kpad.map (fun b => xorByte b 92) ++
    sha256 (kpad.map (fun b => xorByte b 54) ++ msg))

/-- Splitting a byte string at its last dot, as `rsplitn(2, '.')` with
`expect_two` does in jsonwebtoken: the part before the last dot and the
part after it, or nothing when no dot occurs. -/
def splitLastDot (l : List Nat) : Option (List Nat × List Nat) :=
  match l.reverse.dropWhile (fun b => b != 46) with
  | [] => none
  | _ :: msgRev => some (msgRev.reverse, (l.reverse.takeWhile (fun b => b != 46)).reverse)

/-- takeWhile and dropWhile through a satisfying block followed by a
failing element. -/
theorem takeWhile_dropWhile_append (p : Nat → Bool) :
    ∀ (a : List Nat) (c : Nat) (b : List Nat), (∀ x ∈ a, p x = true) → p c = false →
      (a ++ c :: b).takeWhile p = a ∧ (a ++ c :: b).dropWhile p = c :: b := by
  intro a
  induction a with
  | nil =>
      intro c b _ hc
      simp [List.takeWhile, List.dropWhile, hc]
  | cons x xs ih =>
      intro c b ha hc
      have hx : p x = true := ha x (by simp)
      have := ih c b (fun y hy => ha y (by simp [hy])) hc
      simp [List.takeWhile, List.dropWhile, hx, this.1, this.2]

/-- Splitting after appending a dot and a dot-free tail recovers the two
parts. -/
theorem splitLastDot_append (X Y : List Nat) (hY : ∀ y ∈ Y, y ≠ 46) :
    splitLastDot (X ++ 46 :: Y) = some (X, Y) := by
  have hrev : (X ++ 46 :: Y).reverse = Y.reverse ++ 46 :: X.reverse := by
    simp
  have hYr : ∀ y ∈ Y.reverse, (y != 46) = true := by
    intro y hy
    simp only [bne_iff_ne, ne_eq]
    exact hY y (List.mem_reverse.mp hy)
  have h46 : ((46 : Nat) != 46) = false := by decide
  have hsplit := takeWhile_dropWhile_append (fun b => b != 46) Y.reverse 46 X.reverse hYr h46
  simp only [splitLastDot, hrev, hsplit.1, hsplit.2, List.reverse_reverse]

/-- A dot-free byte string does not split. -/
theorem splitLastDot_of_no_dot (l : List Nat) (h : ∀ x ∈ l, x ≠ 46) :
    splitLastDot l = none := by
  have : l.reverse.dropWhile (fun b => b != 46) = [] := by
    rw [List.dropWhile_eq_nil_iff]
    intro x hx
    simp only [bne_iff_ne, ne_eq]
    exact h x (List.mem_reverse.mp hx)
  simp [splitLastDot, this]

/-- Every symbol of a URL-safe base64 encoding satisfies any property of
the alphabet's image. -/
theorem b64EncodeCore_forall (tbl : Nat → Nat) (P : Nat → Prop) (hP : ∀ v, P (tbl v)) :
    ∀ n bs, bs.length ≤ n → ∀ c ∈ b64EncodeCore tbl bs, P c := by
  intro n
  induction n with
  | zero =>
      intro bs hlen c hc
      have : bs = [] := List.eq_nil_of_length_eq_zero (Nat.le_zero.mp hlen)
      subst this
      simp [b64EncodeCore] at hc
  | succ n ih =>
      intro bs hlen c hc
      match bs with
      | [] => simp [b64EncodeCore] at hc
      | [b0] =>
          simp only [b64EncodeCore, List.mem_cons, List.not_mem_nil, or_false] at hc
          rcases hc with hc | hc <;> (subst hc; exact hP _)
      | [b0, b1] =>
          simp only [b64EncodeCore, List.mem_cons, List.not_mem_nil, or_false] at hc
          rcases hc with hc | hc | hc <;> (subst hc; exact hP _)
      | b0 :: b1 :: b2 :: rest =>
          simp only [b64EncodeCore, List.mem_cons] at hc
          rcases hc with hc | hc | hc | hc | hc
          · subst hc; exact hP _
          · subst hc; exact hP _
          · subst hc; exact hP _
          · subst hc; exact hP _
          · exact ih rest (by simp at hlen; omega) c hc

/-- No URL-safe alphabet symbol is the dot, and all are bytes. -/
theorem urlB64Sym_ne_dot_lt : ∀ v, urlB64Sym v ≠ 46 ∧ urlB64Sym v < 256 := by
  intro v
  unfold urlB64Sym
  split
  · omega
  · split
    · omega
    · split
      · omega
      · split <;> omega

/-- URL-safe base64 output is dot-free and byte-valued. -/
theorem b64EncodeUrl_ne_dot_lt (bs : List Nat) :
    ∀ c ∈ b64EncodeUrl bs, c ≠ 46 ∧ c < 256 :=
  b64EncodeCore_forall urlB64Sym _ urlB64Sym_ne_dot_lt bs.length bs le_rfl

/-- Every byte of an escaped JSON string is below 256 when the source bytes
are. -/
theorem jsonEscape_lt (s : List Nat) (hs : ∀ b ∈ s, b < 256) :
    ∀ b ∈ jsonEscape s, b < 256 := by
  induction s with
  | nil => intro b hb; simp [jsonEscape] at hb
  | cons x xs ih =>
      intro b hb
      have hx : x < 256 := hs x (by simp)
      have hxs : ∀ y ∈ xs, y < 256 := fun y hy => hs y (by simp [hy])
      simp only [jsonEscape, List.foldr_cons, List.mem_append] at hb
      rcases hb with hb | hb
      · unfold jsonEscapeByte at hb
        split at hb <;> try (simp at hb; omega)
        split at hb <;> try (simp at hb; omega)
        split at hb <;> try (simp at hb; omega)
        split at hb <;> try (simp at hb; omega)
        split at hb <;> try (simp at hb; omega)
        split at hb <;> try (simp at hb; omega)
        split at hb <;> try (simp at hb; omega)
        split at hb
        · simp only [hexByte, List.mem_cons, List.not_mem_nil, or_false] at hb
          rcases hb with hb | hb | hb | hb | hb | hb <;> subst hb <;> try omega
          · split <;> omega
          · split <;> omega
        · simp at hb; omega
      · exact ih hxs b hb

/-- Every byte of serialized claims is below 256 when the subject bytes
are. -/
theorem claimsJson_lt (c : Claims) (hsub : ∀ b ∈ c.sub, b < 256) :
    ∀ b ∈ claimsJson c, b < 256 := by
  intro b hb
  simp only [claimsJson, List.mem_append, List.mem_cons, List.not_mem_nil, or_false] at hb
  rcases hb with (((((hb | hb) | hb) | hb) | hb) | hb) | hb
  · revert hb
    revert b
    decide
  · exact jsonEscape_lt c.sub hsub b hb
  · revert hb
    revert b
    decide
  · have := decDigits_mem (c.exp + 1) c.exp b hb
    omega
  · revert hb
    revert b
    decide
  · have := decDigits_mem (c.iat + 1) c.iat b hb
    omega
  · omega

/-- Error kinds of jsonwebtoken validation as distinguished here. -/
inductive JwtError where
  | invalidToken
  | base64Error
  | jsonError
  | invalidAlgorithm
  | invalidSignature
  | expiredSignature
deriving DecidableEq

/-- Compact JWS encoding as jsonwebtoken's `encode` produces it for the
default header: base64url header, dot, base64url claims, dot, base64url
HMAC of the signing input.  The HMAC signer is a parameter so that
signature-scheme facts can be stated as explicit hypotheses. -/
def jwtEncode (mac : List Nat → List Nat → List Nat) (secret : List Nat) (c : Claims) :
    List Nat :=
  b64EncodeUrl headerJson ++ 46 :: b64EncodeUrl (claimsJson c) ++ 46 ::
    b64EncodeUrl (mac secret (b64EncodeUrl headerJson ++ 46 :: b64EncodeUrl (claimsJson c)))

/-- jsonwebtoken's `decode` with `Validation::default()`: split at the last
dot into message and signature, split the message at its last dot into
header and payload, base64-decode and parse the header and reject any
algorithm other than HS256, compare the encoded HMAC of the message with
the signature, then base64-decode and parse the claims and reject tokens
expired by more than the default 60-second leeway. -/
def jwtValidate (mac : List Nat → List Nat → List Nat) (secret token : List Nat)
    (now : Nat) : Except JwtError Claims :=
  match splitLastDot token with
  | none => .error .invalidToken
  | some (message, signature) =>
      match splitLastDot message with
      | none => .error .invalidToken
      | some (headerB64, payloadB64) =>
          match b64DecodeUrl headerB64 with
          | none => .error .base64Error
          | some headerBytes =>
              match parseHeaderAlg headerBytes with
              | none => .error .jsonError
              | some alg =>
                  if alg ≠ utf8Encode "HS256" then .error .invalidAlgorithm
                  else if b64EncodeUrl (mac secret message) ≠ signature then
                    .error .invalidSignature
                  else
                    match b64DecodeUrl payloadB64 with
                    | none => .error .base64Error
                    | some claimBytes =>
                        match jsonParseClaims claimBytes with
                        | none => .error .jsonError
                        | some claims =>
                            if claims.exp < now - 60 then .error .expiredSignature
                            else .ok claims

/-- Models `generate_jwt` (jwt.rs:41-57): claims with `sub` the user id,
`exp` one day from now, `iat` now, signed with HMAC-SHA256 under the
`JWT_SECRET` bytes. -/
def generate_jwt (secret user_id : List Nat) (now : Nat) : List Nat :=
  jwtEncode hmacSha256 secret { sub := user_id, exp := now + 86400, iat := now }

/-- Models `validate_jwt` (jwt.rs:68-76): decode with the default
validation under the same secret. -/
def validate_jwt (secret token : List Nat) (now : Nat) : Except JwtError Claims :=
  jwtValidate hmacSha256 secret token now

/-- Models `extract_user_id_from_jwt` (jwt.rs:87-90). -/
def extract_user_id_from_jwt (secret token : List Nat) (now : Nat) :
    Except JwtError (List Nat) :=
  (validate_jwt secret token now).map Claims.sub

/-- Validation of a freshly encoded token reduces to the expiry check. -/
theorem jwtValidate_jwtEncode (mac : List Nat → List Nat → List Nat)
    (secret : List Nat) (c : Claims) (hsub : ∀ b ∈ c.sub, b < 256) (now : Nat) :
    jwtValidate mac secret (jwtEncode mac secret c) now =
      if c.exp < now - 60 then .error .expiredSignature else .ok c := by
  have hsig := b64EncodeUrl_ne_dot_lt
    (mac secret (b64EncodeUrl headerJson ++ 46 :: b64EncodeUrl (claimsJson c)))
  have hpay := b64EncodeUrl_ne_dot_lt (claimsJson c)
  have houter :
      splitLastDot (jwtEncode mac secret c) =
        some (b64EncodeUrl headerJson ++ 46 :: b64EncodeUrl (claimsJson c),
          b64EncodeUrl (mac secret
            (b64EncodeUrl headerJson ++ 46 :: b64EncodeUrl (claimsJson c)))) := by
    have := splitLastDot_append
      (b64EncodeUrl headerJson ++ 46 :: b64EncodeUrl (claimsJson c))
      (b64EncodeUrl (mac secret
        (b64EncodeUrl headerJson ++ 46 :: b64EncodeUrl (claimsJson c))))
      (fun y hy => (hsig y hy).1)
    rw [jwtEncode]
    rw [show b64EncodeUrl headerJson ++ 46 :: b64EncodeUrl (claimsJson c) ++ 46 ::
        b64EncodeUrl (mac secret (b64EncodeUrl headerJson ++ 46 ::
          b64EncodeUrl (claimsJson c))) =
      (b64EncodeUrl headerJson ++ 46 :: b64EncodeUrl (claimsJson c)) ++ 46 ::
        b64EncodeUrl (mac secret (b64EncodeUrl headerJson ++ 46 ::
          b64EncodeUrl (claimsJson c))) from by simp]
    exact this
  have hinner :
      splitLastDot (b64EncodeUrl headerJson ++ 46 :: b64EncodeUrl (claimsJson c)) =
        some (b64EncodeUrl headerJson, b64EncodeUrl (claimsJson c)) :=
    splitLastDot_append _ _ (fun y hy => (hpay y hy).1)
  have hhdr : b64DecodeUrl (b64EncodeUrl headerJson) = some headerJson := by decide
  have halg : parseHeaderAlg headerJson = some (utf8Encode "HS256") := by decide
  have hclaims : b64DecodeUrl (b64EncodeUrl (claimsJson c)) = some (claimsJson c) :=
    b64DecodeUrl_encode _ (claimsJson_lt c hsub)
  have hparse := jsonParseClaims_claimsJson c hsub
  simp only [jwtValidate, houter, hinner, hhdr, halg, hclaims, hparse]
  rw [if_neg (by simp), if_neg (by simp)]

/-- Decoding fails on any input containing a dot. -/
theorem b64DecodeUrl_of_mem_dot :
    ∀ n l, l.length ≤ n → 46 ∈ l → b64DecodeUrl l = none := by
  intro n
  induction n with
  | zero =>
      intro l hlen hmem
      have : l = [] := List.eq_nil_of_length_eq_zero (Nat.le_zero.mp hlen)
      subst this
      simp at hmem
  | succ n ih =>
      intro l hlen hmem
      have hinv : urlB64Inv 46 = none := by decide
      match l with
      | [] => simp at hmem
      | [c0] =>
          rfl
      | [c0, c1] =>
          simp only [List.mem_cons, List.not_mem_nil, or_false] at hmem
          simp only [b64DecodeUrl]
          rcases hmem with h | h <;> subst h <;> simp [hinv]
      | [c0, c1, c2] =>
          simp only [List.mem_cons, List.not_mem_nil, or_false] at hmem
          simp only [b64DecodeUrl]
          rcases hmem with h | h | h <;> subst h <;> simp [hinv]
      | c0 :: c1 :: c2 :: c3 :: rest =>
          simp only [List.mem_cons] at hmem
          simp only [b64DecodeUrl]
          by_cases h0 : c0 = 46
          · subst h0; simp [hinv]
          · by_cases h1 : c1 = 46
            · subst h1; simp [hinv]
            · by_cases h2 : c2 = 46
              · subst h2; simp [hinv]
              · by_cases h3 : c3 = 46
                · subst h3; simp [hinv]
                · have hrest : 46 ∈ rest := by tauto
                  rw [ih rest (by simp at hlen; omega) hrest]
                  cases urlB64Inv c0 <;> cases urlB64Inv c1 <;> cases urlB64Inv c2 <;>
                    cases urlB64Inv c3 <;> rfl

/-- URL-safe base64 encoding is injective on byte strings. -/
theorem b64EncodeUrl_inj (x y : List Nat) (hx : ∀ b ∈ x, b < 256) (hy : ∀ b ∈ y, b < 256)
    (h : b64EncodeUrl x = b64EncodeUrl y) : x = y := by
  have h1 := b64DecodeUrl_encode x hx
  rw [h, b64DecodeUrl_encode y hy] at h1
  exact (Option.some.injEq _ _).mp h1.symm

/-- Replacing an entry with a different value changes the list. -/
theorem set_ne_self (l : List Nat) (i c : Nat) (h : i < l.length) (hc : c ≠ l.getD i 0) :
    l.set i c ≠ l := by
  intro heq
  have hgd : (l.set i c).getD i 0 = l.getD i 0 := by rw [heq]
  rw [List.getD_eq_getElem l 0 h] at hgd
  rw [List.getD_eq_getElem (l.set i c) 0 (by simpa using h)] at hgd
  rw [List.getElem_set_self (by simpa using h)] at hgd
  rw [List.getD_eq_getElem l 0 h] at hc
  exact hc hgd

/-- getD across an append with a distinguished middle element. -/
theorem getD_append_cons (A : List Nat) (x : Nat) (B : List Nat) :
    ∀ i, (A ++ x :: B).getD i 0 =
      if i < A.length then A.getD i 0
      else if i = A.length then x else B.getD (i - A.length - 1) 0 := by
  induction A with
  | nil =>
      intro i
      match i with
      | 0 => simp
      | i + 1 => simp
  | cons a A ih =>
      intro i
      match i with
      | 0 => simp
      | i + 1 =>
          simp only [List.cons_append, List.getD_cons_succ, ih i, List.length_cons]
          by_cases h1 : i < A.length
          · rw [if_pos h1, if_pos (show i + 1 < A.length + 1 from by omega)]
          · rw [if_neg h1, if_neg (show ¬ i + 1 < A.length + 1 from by omega)]
            by_cases h2 : i = A.length
            · rw [if_pos h2, if_pos (show i + 1 = A.length + 1 from by omega)]
            · rw [if_neg h2, if_neg (show ¬ i + 1 = A.length + 1 from by omega)]
              congr 1
              omega

/-- set across an append with a distinguished middle element. -/
theorem set_append_cons (A : List Nat) (x : Nat) (B : List Nat) (c : Nat) :
    ∀ i, (A ++ x :: B).set i c =
      if i < A.length then A.set i c ++ x :: B
      else if i = A.length then A ++ c :: B
      else A ++ x :: B.set (i - A.length - 1) c := by
  induction A with
  | nil =>
      intro i
      match i with
      | 0 => simp
      | i + 1 => simp
  | cons a A ih =>
      intro i
      match i with
      | 0 => simp
      | i + 1 =>
          simp only [List.cons_append, List.set_cons_succ, ih i, List.length_cons]
          by_cases h1 : i < A.length
          · rw [if_pos h1, if_pos (show i + 1 < A.length + 1 from by omega)]
          · rw [if_neg h1, if_neg (show ¬ i + 1 < A.length + 1 from by omega)]
            by_cases h2 : i = A.length
            · rw [if_pos h2, if_pos (show i + 1 = A.length + 1 from by omega)]
            · rw [if_neg h2, if_neg (show ¬ i + 1 = A.length + 1 from by omega),
                show i + 1 - (A.length + 1) - 1 = i - A.length - 1 from by omega]

/-- Altering any single byte of a well-formed signed token to a different
byte makes validation fail, for any MAC that is collision-free under the
given secret on byte-valued messages. -/
theorem jwtValidate_altered_core
    (mac : List Nat → List Nat → List Nat) (secret : List Nat)
    (H P C : List Nat) (now : Nat)
    (hHd : ∀ b ∈ H, b ≠ 46 ∧ b < 256)
    (hPd : ∀ b ∈ P, b ≠ 46 ∧ b < 256)
    (hCd : ∀ b ∈ C, b ≠ 46 ∧ b < 256)
    (hC : C = b64EncodeUrl (mac secret (H ++ 46 :: P)))
    (hmb : ∀ m, (∀ b ∈ m, b < 256) → ∀ b ∈ mac secret m, b < 256)
    (hinj : ∀ m1 m2, (∀ b ∈ m1, b < 256) → (∀ b ∈ m2, b < 256) →
      mac secret m1 = mac secret m2 → m1 = m2)
    (i c' : Nat) (hc' : c' < 256)
    (hi : i < ((H ++ 46 :: P) ++ 46 :: C).length)
    (hne : c' ≠ ((H ++ 46 :: P) ++ 46 :: C).getD i 0) :
    ∀ cl, jwtValidate mac secret (((H ++ 46 :: P) ++ 46 :: C).set i c') now ≠ .ok cl := by
  intro cl
  have hMb : ∀ b ∈ H ++ 46 :: P, b < 256 := by
    intro b hb
    rcases List.mem_append.mp hb with hb | hb
    · exact (hHd b hb).2
    · rcases List.mem_cons.mp hb with hb | hb
      · omega
      · exact (hPd b hb).2
  have hsigne : ∀ M2 : List Nat, (∀ b ∈ M2, b < 256) → M2 ≠ H ++ 46 :: P →
      b64EncodeUrl (mac secret M2) ≠ C := by
    intro M2 hb2 hne2 heq
    rw [hC] at heq
    exact hne2 (hinj M2 (H ++ 46 :: P) hb2 hMb (b64EncodeUrl_inj _ _ (hmb M2 hb2) (hmb _ hMb) heq))
  rw [getD_append_cons] at hne
  rw [set_append_cons]
  by_cases hiM : i < (H ++ 46 :: P).length
  · rw [if_pos hiM] at hne ⊢
    rw [getD_append_cons] at hne
    rw [set_append_cons]
    by_cases hiH : i < H.length
    · -- alteration inside the header segment
      rw [if_pos hiH] at hne ⊢
      have hH'b : ∀ b ∈ H.set i c', b < 256 := by
        intro b hb
        rcases (List.mem_or_eq_of_mem_set hb) with hb | hb
        · exact (hHd b hb).2
        · omega
      have hM'b : ∀ b ∈ H.set i c' ++ 46 :: P, b < 256 := by
        intro b hb
        rcases List.mem_append.mp hb with hb | hb
        · exact hH'b b hb
        · rcases List.mem_cons.mp hb with hb | hb
          · omega
          · exact (hPd b hb).2
      have hM'ne : H.set i c' ++ 46 :: P ≠ H ++ 46 :: P := by
        intro heq
        exact set_ne_self H i c' hiH hne (List.append_cancel_right heq)
      have houter : splitLastDot ((H.set i c' ++ 46 :: P) ++ 46 :: C) =
          some (H.set i c' ++ 46 :: P, C) :=
        splitLastDot_append _ _ (fun y hy => (hCd y hy).1)
      have hinner : splitLastDot (H.set i c' ++ 46 :: P) = some (H.set i c', P) :=
        splitLastDot_append _ _ (fun y hy => (hPd y hy).1)
      simp only [jwtValidate, houter, hinner]
      rcases hdec : b64DecodeUrl (H.set i c') with _ | hb
      · simp
      · simp only []
        rcases hal : parseHeaderAlg hb with _ | alg
        · simp
        · simp only []
          by_cases halg : alg ≠ utf8Encode "HS256"
          · rw [if_pos halg]
            simp
          · rw [if_neg halg, if_pos (hsigne _ hM'b hM'ne)]
            simp
    · rw [if_neg hiH] at hne ⊢
      by_cases hiHe : i = H.length
      · -- the inner dot is replaced, leaving a dot-free message
        rw [if_pos hiHe] at hne ⊢
        have hmsg : ∀ x ∈ H ++ c' :: P, x ≠ 46 := by
          intro x hx
          rcases List.mem_append.mp hx with hx | hx
          · exact (hHd x hx).1
          · rcases List.mem_cons.mp hx with hx | hx
            · subst hx; exact hne
            · exact (hPd x hx).1
        have houter : splitLastDot ((H ++ c' :: P) ++ 46 :: C) = some (H ++ c' :: P, C) :=
          splitLastDot_append _ _ (fun y hy => (hCd y hy).1)
        have hinner : splitLastDot (H ++ c' :: P) = none := splitLastDot_of_no_dot _ hmsg
        simp only [jwtValidate, houter, hinner]
        simp
      · -- alteration inside the payload segment
        rw [if_neg hiHe] at hne ⊢
        by_cases hdot : c' = 46
        · -- a second dot is introduced inside the payload
          subst hdot
          have hjP : i - H.length - 1 < P.length := by
            simp only [List.length_append, List.length_cons] at hiM
            omega
          rw [List.set_eq_take_append_cons_drop, if_pos hjP]
          have hdropd : ∀ y ∈ P.drop (i - H.length - 1 + 1), y ≠ 46 :=
            fun y hy => (hPd y (List.drop_subset _ P hy)).1
          have hassoc : (H ++ 46 :: (P.take (i - H.length - 1) ++ 46 ::
              P.drop (i - H.length - 1 + 1))) ++ 46 :: C =
              ((H ++ 46 :: P.take (i - H.length - 1)) ++ 46 ::
                P.drop (i - H.length - 1 + 1)) ++ 46 :: C := by
            simp
          rw [hassoc]
          have houter : splitLastDot (((H ++ 46 :: P.take (i - H.length - 1)) ++ 46 ::
              P.drop (i - H.length - 1 + 1)) ++ 46 :: C) =
              some ((H ++ 46 :: P.take (i - H.length - 1)) ++ 46 ::
                P.drop (i - H.length - 1 + 1), C) :=
            splitLastDot_append _ _ (fun y hy => (hCd y hy).1)
          have hinner : splitLastDot ((H ++ 46 :: P.take (i - H.length - 1)) ++ 46 ::
              P.drop (i - H.length - 1 + 1)) =
              some (H ++ 46 :: P.take (i - H.length - 1),
                P.drop (i - H.length - 1 + 1)) :=
            splitLastDot_append _ _ hdropd
          have hmem : (46 : Nat) ∈ H ++ 46 :: P.take (i - H.length - 1) := by
            simp
          have hdec : b64DecodeUrl (H ++ 46 :: P.take (i - H.length - 1)) = none :=
            b64DecodeUrl_of_mem_dot _ _ le_rfl hmem
          simp only [jwtValidate, houter, hinner, hdec]
          simp
        · -- payload changed to a different non-dot byte
          have hP'd : ∀ y ∈ P.set (i - H.length - 1) c', y ≠ 46 := by
            intro y hy
            rcases (List.mem_or_eq_of_mem_set hy) with hy | hy
            · exact (hPd y hy).1
            · subst hy; exact hdot
          have hP'b : ∀ b ∈ P.set (i - H.length - 1) c', b < 256 := by
            intro b hb
            rcases (List.mem_or_eq_of_mem_set hb) with hb | hb
            · exact (hPd b hb).2
            · omega
          have hjP : i - H.length - 1 < P.length := by
            simp only [List.length_append, List.length_cons] at hiM
            omega
          have hM'b : ∀ b ∈ H ++ 46 :: P.set (i - H.length - 1) c', b < 256 := by
            intro b hb
            rcases List.mem_append.mp hb with hb | hb
            · exact (hHd b hb).2
            · rcases List.mem_cons.mp hb with hb | hb
              · omega
              · exact hP'b b hb
          have hM'ne : H ++ 46 :: P.set (i - H.length - 1) c' ≠ H ++ 46 :: P := by
            intro heq
            have := List.append_cancel_left heq
            simp only [List.cons.injEq, true_and] at this
            exact set_ne_self P (i - H.length - 1) c' hjP hne this
          have houter : splitLastDot ((H ++ 46 :: P.set (i - H.length - 1) c') ++ 46 :: C) =
              some (H ++ 46 :: P.set (i - H.length - 1) c', C) :=
            splitLastDot_append _ _ (fun y hy => (hCd y hy).1)
          have hinner : splitLastDot (H ++ 46 :: P.set (i - H.length - 1) c') =
              some (H, P.set (i - H.length - 1) c') :=
            splitLastDot_append _ _ hP'd
          simp only [jwtValidate, houter, hinner]
          rcases hdec : b64DecodeUrl H with _ | hb
          · simp
          · simp only []
            rcases hal : parseHeaderAlg hb with _ | alg
            · simp
            · simp only []
              by_cases halg : alg ≠ utf8Encode "HS256"
              · rw [if_pos halg]
                simp
              · rw [if_neg halg, if_pos (hsigne _ hM'b hM'ne)]
                simp
  · rw [if_neg hiM] at hne ⊢
    by_cases hiMe : i = (H ++ 46 :: P).length
    · -- the outer dot is replaced: the tail after the inner dot is dot-free
      rw [if_pos hiMe] at hne ⊢
      have hassoc : (H ++ 46 :: P) ++ c' :: C = H ++ 46 :: (P ++ c' :: C) := by
        simp
      rw [hassoc]
      have htaild : ∀ y ∈ P ++ c' :: C, y ≠ 46 := by
        intro y hy
        rcases List.mem_append.mp hy with hy | hy
        · exact (hPd y hy).1
        · rcases List.mem_cons.mp hy with hy | hy
          · subst hy; exact hne
          · exact (hCd y hy).1
      have houter : splitLastDot (H ++ 46 :: (P ++ c' :: C)) = some (H, P ++ c' :: C) :=
        splitLastDot_append _ _ htaild
      have hinner : splitLastDot H = none :=
        splitLastDot_of_no_dot _ (fun x hx => (hHd x hx).1)
      simp only [jwtValidate, houter, hinner]
      simp
    · -- alteration inside the signature segment
      rw [if_neg hiMe] at hne ⊢
      have hjC : i - (H ++ 46 :: P).length - 1 < C.length := by
        simp only [List.length_append, List.length_cons] at hi hiM hiMe ⊢
        omega
      by_cases hdot : c' = 46
      · -- a second dot is introduced inside the signature
        subst hdot
        rw [List.set_eq_take_append_cons_drop, if_pos hjC]
        have hdropd : ∀ y ∈ C.drop (i - (H ++ 46 :: P).length - 1 + 1), y ≠ 46 :=
          fun y hy => (hCd y (List.drop_subset _ C hy)).1
        have htaked : ∀ y ∈ C.take (i - (H ++ 46 :: P).length - 1), y ≠ 46 :=
          fun y hy => (hCd y (List.take_subset _ C hy)).1
        have hassoc : (H ++ 46 :: P) ++ 46 :: (C.take (i - (H ++ 46 :: P).length - 1) ++ 46 ::
            C.drop (i - (H ++ 46 :: P).length - 1 + 1)) =
            ((H ++ 46 :: P) ++ 46 :: C.take (i - (H ++ 46 :: P).length - 1)) ++ 46 ::
              C.drop (i - (H ++ 46 :: P).length - 1 + 1) := by
          simp
        rw [hassoc]
        have houter := splitLastDot_append
          ((H ++ 46 :: P) ++ 46 :: C.take (i - (H ++ 46 :: P).length - 1))
          (C.drop (i - (H ++ 46 :: P).length - 1 + 1)) hdropd
        have hinner := splitLastDot_append (H ++ 46 :: P)
          (C.take (i - (H ++ 46 :: P).length - 1)) htaked
        have hmem : (46 : Nat) ∈ H ++ 46 :: P := by simp
        have hdec : b64DecodeUrl (H ++ 46 :: P) = none :=
          b64DecodeUrl_of_mem_dot _ _ le_rfl hmem
        simp only [jwtValidate, houter, hinner, hdec]
        simp
      · -- signature changed to a different non-dot byte
        have hC'd : ∀ y ∈ C.set (i - (H ++ 46 :: P).length - 1) c', y ≠ 46 := by
          intro y hy
          rcases (List.mem_or_eq_of_mem_set hy) with hy | hy
          · exact (hCd y hy).1
          · subst hy; exact hdot
        have hC'ne : b64EncodeUrl (mac secret (H ++ 46 :: P)) ≠
            C.set (i - (H ++ 46 :: P).length - 1) c' := by
          rw [← hC]
          intro heq
          exact set_ne_self C (i - (H ++ 46 :: P).length - 1) c' hjC hne heq.symm
        have houter : splitLastDot ((H ++ 46 :: P) ++ 46 ::
            C.set (i - (H ++ 46 :: P).length - 1) c') =
            some (H ++ 46 :: P, C.set (i - (H ++ 46 :: P).length - 1) c') :=
          splitLastDot_append _ _ hC'd
        have hinner : splitLastDot (H ++ 46 :: P) = some (H, P) :=
          splitLastDot_append _ _ (fun y hy => (hPd y hy).1)
        simp only [jwtValidate, houter, hinner]
        rcases hdec : b64DecodeUrl H with _ | hb
        · simp
        · simp only []
          rcases hal : parseHeaderAlg hb with _ | alg
          · simp
          · simp only []
            by_cases halg : alg ≠ utf8Encode "HS256"
            · rw [if_pos halg]
              simp
            · rw [if_neg halg, if_pos hC'ne]
              simp

/-- Claim C5 (amended): under the same signing secret, validating a token
issued for subject S succeeds with subject S whenever validation happens no
later than the 24-hour horizon; validation fails once more than the
60-second default leeway of `Validation::default()` has passed beyond the
horizon (not immediately at the horizon, which is the correction to the
claim); and, for any signer that is collision-free under the secret on
byte-valued messages — the symbolic reading of HMAC-SHA256's collision
resistance — altering any single byte of the token makes validation fail. -/
theorem c5_token_lifecycle (secret S : List Nat) (now now' : Nat)
    (hS : ∀ b ∈ S, b < 256) :
    (now' ≤ now + 86400 →
      validate_jwt secret (generate_jwt secret S now) now' =
        .ok ⟨S, now + 86400, now⟩) ∧
    (now + 86400 + 60 < now' →
      validate_jwt secret (generate_jwt secret S now) now' =
        .error .expiredSignature) ∧
    (∀ mac : List Nat → List Nat → List Nat,
      (∀ m, (∀ b ∈ m, b < 256) → ∀ b ∈ mac secret m, b < 256) →
      (∀ m1 m2, (∀ b ∈ m1, b < 256) → (∀ b ∈ m2, b < 256) →
        mac secret m1 = mac secret m2 → m1 = m2) →
      ∀ i c', c' < 256 →
        i < (jwtEncode mac secret ⟨S, now + 86400, now⟩).length →
        c' ≠ (jwtEncode mac secret ⟨S, now + 86400, now⟩).getD i 0 →
        ∀ cl, jwtValidate mac secret
          ((jwtEncode mac secret ⟨S, now + 86400, now⟩).set i c') now' ≠ .ok cl) := by
  have hred := jwtValidate_jwtEncode hmacSha256 secret ⟨S, now + 86400, now⟩ hS now'
  refine ⟨?_, ?_, ?_⟩
  · intro hbefore
    simp only [validate_jwt, generate_jwt, hred]
    rw [if_neg (by omega)]
  · intro hafter
    simp only [validate_jwt, generate_jwt, hred]
    rw [if_pos (by omega)]
  · intro mac hmb hinj i c' hc' hi hne cl
    have hform : jwtEncode mac secret ⟨S, now + 86400, now⟩ =
        (b64EncodeUrl headerJson ++ 46 :: b64EncodeUrl (claimsJson ⟨S, now + 86400, now⟩)) ++
          46 :: b64EncodeUrl (mac secret (b64EncodeUrl headerJson ++ 46 ::
            b64EncodeUrl (claimsJson ⟨S, now + 86400, now⟩))) := by
      simp [jwtEncode]
    rw [hform] at hi hne ⊢
    exact jwtValidate_altered_core mac secret
      (b64EncodeUrl headerJson) (b64EncodeUrl (claimsJson ⟨S, now + 86400, now⟩))
      (b64EncodeUrl (mac secret (b64EncodeUrl headerJson ++ 46 ::
        b64EncodeUrl (claimsJson ⟨S, now + 86400, now⟩)))) now'
      (b64EncodeUrl_ne_dot_lt headerJson)
      (b64EncodeUrl_ne_dot_lt _)
      (b64EncodeUrl_ne_dot_lt _)
      rfl hmb hinj i c' hc' hi hne cl

/-- Claim C5, counterexample to the original claim: thirty seconds after
the 24-hour horizon has elapsed, validation still succeeds, because
`Validation::default()` applies a 60-second leeway to the expiry check;
the original claim asserts validation fails after the horizon. -/
theorem c5_counterexample :
    1000000 + 86400 < 1086430 ∧
    validate_jwt (utf8Encode "secret")
      (generate_jwt (utf8Encode "secret") (utf8Encode "user1") 1000000) 1086430 =
      .ok ⟨utf8Encode "user1", 1086400, 1000000⟩ := by
  constructor
  · decide
  · have hred := jwtValidate_jwtEncode hmacSha256 (utf8Encode "secret")
      ⟨utf8Encode "user1", 1000000 + 86400, 1000000⟩ (by decide) 1086430
    simp only [validate_jwt, generate_jwt, hred]
    rw [if_neg (by norm_num)]

/-- Witness for C5 at concrete inputs: the round trip just before expiry,
the failure just after expiry plus leeway, and rejection of a token whose
first byte is altered, with the identity-on-message signer (which is
injective, hence collision-free) standing in for HMAC-SHA256. -/
theorem c5_token_lifecycle_witness :
    validate_jwt (utf8Encode "secret")
      (generate_jwt (utf8Encode "secret") (utf8Encode "user1") 1000000) 1086400 =
      .ok ⟨utf8Encode "user1", 1086400, 1000000⟩ ∧
    validate_jwt (utf8Encode "secret")
      (generate_jwt (utf8Encode "secret") (utf8Encode "user1") 1000000) 1086461 =
      .error .expiredSignature ∧
    ∀ cl, jwtValidate (fun _ m => m) (utf8Encode "secret")
      ((jwtEncode (fun _ m => m) (utf8Encode "secret")
        ⟨utf8Encode "user1", 1000000 + 86400, 1000000⟩).set 0 95) 1000000 ≠ .ok cl := by
  obtain ⟨h1, h2, h3⟩ := c5_token_lifecycle (utf8Encode "secret") (utf8Encode "user1")
    1000000 1086400 (by decide)
  refine ⟨by rw [h1 (by norm_num)], ?_, ?_⟩
  · obtain ⟨_, h2b, _⟩ := c5_token_lifecycle (utf8Encode "secret") (utf8Encode "user1")
      1000000 1086461 (by decide)
    rw [h2b (by norm_num)]
  · exact h3 (fun _ m => m) (fun m hm => hm) (fun m1 m2 _ _ h => h) 0 95 (by norm_num)
      (by decide) (by decide)

/-! ## PHC-string base64 (standard alphabet, unpadded), as the
password-hash crate uses for salt and digest fields -/

/-- Base64 encoding with the standard alphabet and no padding. -/
def b64EncodeNoPad (bs : List Nat) : List Nat := b64EncodeCore stdB64Sym bs

/-- Decoding for the unpadded standard-alphabet engine. -/
def b64DecodeNoPad : List Nat → Option (List Nat)
  | [] => some []
  | [c0, c1] =>
      match stdB64Inv c0, stdB64Inv c1 with
      | some v0, some v1 => if v1 % 16 = 0 then some [v0 * 4 + v1 / 16] else none
      | _, _ => none
  | [c0, c1, c2] =>
      match stdB64Inv c0, stdB64Inv c1, stdB64Inv c2 with
      | some v0, some v1, some v2 =>
          if v2 % 4 = 0 then some [v0 * 4 + v1 / 16, v1 % 16 * 16 + v2 / 4] else none
      | _, _, _ => none
  | c0 :: c1 :: c2 :: c3 :: rest =>
      match stdB64Inv c0, stdB64Inv c1, stdB64Inv c2, stdB64Inv c3 with
      | some v0, some v1, some v2, some v3 =>
          (b64DecodeNoPad rest).map fun tail =>
            (v0 * 4 + v1 / 16) :: (v1 % 16 * 16 + v2 / 4) :: (v2 % 4 * 64 + v3) :: tail
      | _, _, _, _ => none
  | _ => none

/-- Unpadded standard-alphabet decoding undoes encoding (fuel-indexed). -/
theorem b64DecodeNoPad_encode_aux :
    ∀ n bs, bs.length ≤ n → (∀ b ∈ bs, b < 256) →
      b64DecodeNoPad (b64EncodeCore stdB64Sym bs) = some bs := by
  intro n
  induction n with
  | zero =>
      intro bs hlen _
      have : bs = [] := List.eq_nil_of_length_eq_zero (Nat.le_zero.mp hlen)
      subst this
      rfl
  | succ n ih =>
      intro bs hlen hb
      match bs with
      | [] => rfl
      | [b0] =>
          have hb0 : b0 < 256 := hb b0 (by simp)
          have h0 : stdB64Inv (stdB64Sym (b0 / 4)) = some (b0 / 4) :=
            stdB64Inv_sym _ (by omega)
          have h1 : stdB64Inv (stdB64Sym (b0 % 4 * 16)) = some (b0 % 4 * 16) :=
            stdB64Inv_sym _ (by omega)
          simp only [b64EncodeCore, b64DecodeNoPad, h0, h1]
          simp only [show b0 % 4 * 16 % 16 = 0 from by omega, reduceIte,
            Option.some.injEq, List.cons.injEq, and_true]
          omega
      | [b0, b1] =>
          have hb0 : b0 < 256 := hb b0 (by simp)
          have hb1 : b1 < 256 := hb b1 (by simp)
          have h0 : stdB64Inv (stdB64Sym (b0 / 4)) = some (b0 / 4) :=
            stdB64Inv_sym _ (by omega)
          have h1 : stdB64Inv (stdB64Sym (b0 % 4 * 16 + b1 / 16)) =
              some (b0 % 4 * 16 + b1 / 16) := stdB64Inv_sym _ (by omega)
          have h2 : stdB64Inv (stdB64Sym (b1 % 16 * 4)) = some (b1 % 16 * 4) :=
            stdB64Inv_sym _ (by omega)
          simp only [b64EncodeCore, b64DecodeNoPad, h0, h1, h2]
          simp only [show b1 % 16 * 4 % 4 = 0 from by omega, reduceIte,
            Option.some.injEq, List.cons.injEq, and_true]
          omega
      | b0 :: b1 :: b2 :: rest =>
          have hb0 : b0 < 256 := hb b0 (by simp)
          have hb1 : b1 < 256 := hb b1 (by simp)
          have hb2 : b2 < 256 := hb b2 (by simp)
          have h0 : stdB64Inv (stdB64Sym (b0 / 4)) = some (b0 / 4) :=
            stdB64Inv_sym _ (by omega)
          have h1 : stdB64Inv (stdB64Sym (b0 % 4 * 16 + b1 / 16)) =
              some (b0 % 4 * 16 + b1 / 16) := stdB64Inv_sym _ (by omega)
          have h2 : stdB64Inv (stdB64Sym (b1 % 16 * 4 + b2 / 64)) =
              some (b1 % 16 * 4 + b2 / 64) := stdB64Inv_sym _ (by omega)
          have h3 : stdB64Inv (stdB64Sym (b2 % 64)) = some (b2 % 64) :=
            stdB64Inv_sym _ (by omega)
          have hrest := ih rest (by simp at hlen ⊢; omega) (fun b hbmem => hb b (by simp [hbmem]))
          match hrone : b64EncodeCore stdB64Sym rest with
          | [] =>
              rw [hrone] at hrest
              simp only [b64DecodeNoPad] at hrest
              simp only [b64EncodeCore, b64DecodeNoPad, h0, h1, h2, h3, hrone, hrest,
                Option.map_some, Option.map_some', Option.some.injEq, List.cons.injEq, and_true]
              omega
          | c :: cs =>
              rw [hrone] at hrest
              simp only [b64EncodeCore, b64DecodeNoPad, h0, h1, h2, h3, hrone, hrest,
                Option.map_some, Option.map_some', Option.some.injEq, List.cons.injEq, and_true]
              omega

/-- The unpadded standard engine decodes its own encoding. -/
theorem b64DecodeNoPad_encode (bs : List Nat) (hb : ∀ b ∈ bs, b < 256) :
    b64DecodeNoPad (b64EncodeNoPad bs) = some bs :=
  b64DecodeNoPad_encode_aux bs.length bs le_rfl hb

/-- No standard-alphabet symbol is the dollar sign. -/
theorem stdB64Sym_ne_dollar_lt : ∀ v, stdB64Sym v ≠ 36 ∧ stdB64Sym v < 256 := by
  intro v
  unfold stdB64Sym
  split
  · omega
  · split
    · omega
    · split
      · omega
      · split <;> omega

/-- Unpadded standard base64 output avoids the dollar sign and is
byte-valued. -/
theorem b64EncodeNoPad_ne_dollar_lt (bs : List Nat) :
    ∀ c ∈ b64EncodeNoPad bs, c ≠ 36 ∧ c < 256 :=
  b64EncodeCore_forall stdB64Sym _ stdB64Sym_ne_dollar_lt bs.length bs le_rfl

/-- Decidable equality for Except outcomes, used to compare results. -/
instance {e a : Type} [DecidableEq e] [DecidableEq a] : DecidableEq (Except e a) := fun x y =>
  match x, y with
  | .ok u, .ok v =>
      if h : u = v then isTrue (by rw [h]) else isFalse (fun hc => h (Except.ok.inj hc))
  | .error u, .error v =>
      if h : u = v then isTrue (by rw [h]) else isFalse (fun hc => h (Except.error.inj hc))
  | .ok _, .error _ => isFalse (fun hc => Except.noConfusion hc)
  | .error _, .ok _ => isFalse (fun hc => Except.noConfusion hc)

/-! ## src/hashing.rs -/

/-- Argon2 cost parameters as embedded in the PHC string. -/
structure Argon2Params where
  m : Nat
  t : Nat
  p : Nat
deriving DecidableEq

/-- The argon2 crate's `Params::default()`: m=19456 KiB, t=2, p=1. -/
def argon2DefaultParams : Argon2Params := ⟨19456, 2, 1⟩

/-- Parse-stage failures of `PasswordHash::new` / parameter extraction —
the password-hash crate error variants a malformed record produces, which
are distinct from the `Password` mismatch variant. -/
inductive PhcParseError where
  | phcStringField
  | paramValueInvalid
  | b64Encoding
deriving DecidableEq

/-- The password-hash crate errors observable through `verify_password`:
either a parse-stage failure or the password-mismatch failure. -/
inductive Argon2Error where
  | password
  | parse (e : PhcParseError)
deriving DecidableEq

/-- The PHC string the argon2 crate serializes for Argon2id v19:
dollar-separated algorithm, version, comma-separated cost parameters, then
unpadded-base64 salt and digest. -/
def phcString (params : Argon2Params) (salt digest : List Nat) : List Nat :=
  utf8Encode "$argon2id$v=19$m=" ++ natToDecimal params.m ++ utf8Encode ",t=" ++
    natToDecimal params.t ++ utf8Encode ",p=" ++ natToDecimal params.p ++
    36 :: b64EncodeNoPad salt ++ 36 :: b64EncodeNoPad digest

/-- Parsing of a stored record into parameters, salt bytes and digest
bytes, modelling `PasswordHash::new` plus parameter extraction on the
algorithm, version and field shape the serializer above emits; any
malformed record yields a parse-stage error, never the mismatch error. -/
def parsePhc (record : List Nat) : Except PhcParseError (Argon2Params × List Nat × List Nat) :=
  match dropLit (utf8Encode "$argon2id$v=19$m=") record with
  | none => .error .phcStringField
  | some r1 =>
      match parseNat r1 with
      | none => .error .paramValueInvalid
      | some (m, r2) =>
          match dropLit (utf8Encode ",t=") r2 with
          | none => .error .phcStringField
          | some r3 =>
              match parseNat r3 with
              | none => .error .paramValueInvalid
              | some (t, r4) =>
                  match dropLit (utf8Encode ",p=") r4 with
                  | none => .error .phcStringField
                  | some r5 =>
                      match parseNat r5 with
                      | none => .error .paramValueInvalid
                      | some (p, r6) =>
                          match r6 with
                          | 36 :: r7 =>
                              let saltB64 := r7.takeWhile (fun b => b != 36)
                              match r7.dropWhile (fun b => b != 36) with
                              | 36 :: hashB64 =>
                                  match b64DecodeNoPad saltB64, b64DecodeNoPad hashB64 with
                                  | some salt, some digest => .ok (⟨m, t, p⟩, salt, digest)
                                  | _, _ => .error .b64Encoding
                              | _ => .error .phcStringField
                          | _ => .error .phcStringField

/-- Models `hash_random_salt` (hashing.rs:24-46): the randomly generated
salt and the Argon2id key-derivation function are explicit parameters; the
result is the serialized PHC record embedding the default parameters, the
salt and the derived digest. -/
def hash_random_salt (argon2fn : Argon2Params → List Nat → List Nat → List Nat)
    (salt password : List Nat) : List Nat :=
  phcString argon2DefaultParams salt (argon2fn argon2DefaultParams password salt)

/-- Models `verify_password` (hashing.rs:58-70): parse the stored record —
propagating any parse error unchanged, as the `?` operator does — then
recompute the digest with the embedded parameters and salt and compare;
a mismatch is reported as the password error. -/
def verify_password (argon2fn : Argon2Params → List Nat → List Nat → List Nat)
    (password record : List Nat) : Except Argon2Error Unit :=
  match parsePhc record with
  | .error e => .error (.parse e)
  | .ok (params, salt, digest) =>
      if argon2fn params password salt = digest then .ok () else .error .password

/-- Parsing the serialized PHC record recovers parameters, salt and
digest. -/
theorem parsePhc_phcString (params : Argon2Params) (salt digest : List Nat)
    (hsalt : ∀ b ∈ salt, b < 256) (hdigest : ∀ b ∈ digest, b < 256) :
    parsePhc (phcString params salt digest) = .ok (params, salt, digest) := by
  have hm := parseNat_natToDecimal params.m
    (utf8Encode ",t=" ++ (natToDecimal params.t ++ (utf8Encode ",p=" ++
      (natToDecimal params.p ++ (36 :: (b64EncodeNoPad salt ++ 36 :: b64EncodeNoPad digest))))))
    (by intro r hr; simp [show utf8Encode ",t=" = 44 :: utf8Encode "t=" from by decide] at hr; omega)
  have ht := parseNat_natToDecimal params.t
    (utf8Encode ",p=" ++ (natToDecimal params.p ++
      (36 :: (b64EncodeNoPad salt ++ 36 :: b64EncodeNoPad digest))))
    (by intro r hr; simp [show utf8Encode ",p=" = 44 :: utf8Encode "p=" from by decide] at hr; omega)
  have hp := parseNat_natToDecimal params.p
    (36 :: (b64EncodeNoPad salt ++ 36 :: b64EncodeNoPad digest))
    (by intro r hr; simp at hr; omega)
  have hsplit := takeWhile_dropWhile_append (fun b => b != 36)
    (b64EncodeNoPad salt) 36 (b64EncodeNoPad digest)
    (by
      intro x hx
      simp only [bne_iff_ne, ne_eq]
      exact (b64EncodeNoPad_ne_dollar_lt salt x hx).1)
    (by decide)
  have hphc : phcString params salt digest =
      utf8Encode "$argon2id$v=19$m=" ++ (natToDecimal params.m ++ (utf8Encode ",t=" ++
        (natToDecimal params.t ++ (utf8Encode ",p=" ++ (natToDecimal params.p ++
          (36 :: (b64EncodeNoPad salt ++ 36 :: b64EncodeNoPad digest))))))) := by
    simp [phcString]
  simp only [parsePhc, hphc, dropLit_append, hm, ht, hp, List.cons_append, hsplit.1,
    hsplit.2, b64DecodeNoPad_encode salt hsalt, b64DecodeNoPad_encode digest hdigest]

/-- Claim C7 (amended): a stored record that fails to parse makes
`verify_password` fail, but with the propagated parse error — a value
distinct from the password-mismatch error — rather than the uniform
verification-failure outcome the claim asserts.  The caller in database.rs
only recovers uniformity by collapsing the result with `is_ok()`. -/
theorem c7_parse_failure_distinct_outcome :
    ∀ (argon2fn : Argon2Params → List Nat → List Nat → List Nat)
      (password record : List Nat) (e : PhcParseError),
      parsePhc record = .error e →
      verify_password argon2fn password record = .error (.parse e) ∧
        (Argon2Error.parse e ≠ .password) := by
  intro argon2fn password record e hparse
  constructor
  · simp [verify_password, hparse]
  · intro h
    cases h

/-- Witness for C7: the empty record fails to parse with the field error,
and verification of any password against it reports that parse error, not
the password error. -/
theorem c7_parse_failure_distinct_outcome_witness :
    parsePhc [] = .error .phcStringField ∧
    verify_password (fun _ _ _ => []) (utf8Encode "x") [] =
      .error (.parse .phcStringField) ∧
    (Argon2Error.parse .phcStringField ≠ .password) := by
  refine ⟨by decide, ?_⟩
  exact c7_parse_failure_distinct_outcome (fun _ _ _ => []) (utf8Encode "x") [] .phcStringField
    (by decide)

/-- Claim C7, counterexample: verifying against the unparseable empty
record yields the parse-stage field error, which differs from the
password-mismatch outcome the claim says all failures collapse to. -/
theorem c7_counterexample :
    verify_password (fun _ _ _ => []) (utf8Encode "x") [] =
      .error (.parse .phcStringField) ∧
    verify_password (fun _ _ _ => []) (utf8Encode "x") [] ≠ .error .password := by
  decide

/-- Claim C8: verifying a password against the record produced by hashing
it succeeds, and — when the key-derivation function is collision-free in
the password for the embedded salt and parameters, the symbolic reading of
Argon2id's collision resistance — verifying any other password against
that record fails with the password error. -/
theorem c8_password_hash_roundtrip
    (argon2fn : Argon2Params → List Nat → List Nat → List Nat)
    (salt pw pw2 : List Nat)
    (hsalt : ∀ b ∈ salt, b < 256)
    (hout : ∀ b ∈ argon2fn argon2DefaultParams pw salt, b < 256)
    (hinj : ∀ p1 p2, argon2fn argon2DefaultParams p1 salt =
      argon2fn argon2DefaultParams p2 salt → p1 = p2) :
    verify_password argon2fn pw (hash_random_salt argon2fn salt pw) = .ok () ∧
    (pw2 ≠ pw →
      verify_password argon2fn pw2 (hash_random_salt argon2fn salt pw) = .error .password) := by
  have hparse := parsePhc_phcString argon2DefaultParams salt
    (argon2fn argon2DefaultParams pw salt) hsalt hout
  constructor
  · simp [verify_password, hash_random_salt, hparse]
  · intro hne
    simp only [verify_password, hash_random_salt, hparse]
    rw [if_neg (fun heq => hne (hinj pw2 pw heq))]

/-- Witness for C8 with the identity key-derivation function (injective in
the password) at a concrete salt and passwords. -/
theorem c8_password_hash_roundtrip_witness :
    verify_password (fun _ p _ => p) (utf8Encode "password123")
      (hash_random_salt (fun _ p _ => p) (List.replicate 16 7)
        (utf8Encode "password123")) = .ok () ∧
    verify_password (fun _ p _ => p) (utf8Encode "wrong_password")
      (hash_random_salt (fun _ p _ => p) (List.replicate 16 7)
        (utf8Encode "password123")) = .error .password := by
  obtain ⟨h1, h2⟩ := c8_password_hash_roundtrip (fun _ p _ => p) (List.replicate 16 7)
    (utf8Encode "password123") (utf8Encode "wrong_password")
    (by decide) (by decide) (fun p1 p2 h => h)
  exact ⟨h1, h2 (by decide)⟩

/-! ## src/database.rs: the user slice of the store -/

/-- A stored user record (database.rs:23-40).  The record id is kept as the
string rendering of the SurrealDB Thing. -/
structure User where
  id : List Nat
  encrypted_firstname : List Nat
  encrypted_lastname : List Nat
  username : List Nat
  password_hash : List Nat
  encrypted_email : List Nat
  email_hash : String
  created_at : List Nat
deriving DecidableEq

/-- Models `Database::authenticate_user` (database.rs:421-461): hash the
incoming email bytes, select the users whose stored `email_hash` equals it
(the store is passed explicitly as a list of records), pop the match, and
verify the password; a missing record is `UserNotFound`, a failed
verification `InvalidPassword`. -/
def authenticate_user (argon2fn : Argon2Params → List Nat → List Nat → List Nat)
    (db : List User) (email password : List Nat) : Except CustomError User :=
  let email_hash := bytesToHex (sha256 email)
  match (db.filter (fun u => u.email_hash = email_hash)).getLast? with
  | some user =>
      if (verify_password argon2fn password user.password_hash).isOk then .ok user
      else .error .invalidPassword
  | none => .error .userNotFound

/-! ## src/server.rs: the login and registration slice -/

/-- Models Rust `str::to_lowercase` on the byte level: ASCII uppercase
letters are shifted to lowercase; all other bytes — including every byte
of a multi-byte UTF-8 sequence, which is at least 0x80 — are unchanged.
(Unicode case mappings outside ASCII are not modelled.) -/
def rust_to_lowercase (s : List Nat) : List Nat :=
  s.map fun b => if 65 ≤ b ∧ b ≤ 90 then b + 32 else b

/-- The observable outcome of the login handler. -/
inductive LoginResponse where
  | okToken (status : Nat) (token : List Nat) (username : List Nat)
  | failMsg (status : Nat) (message : String)
deriving DecidableEq

/-- Models the `login` handler (server.rs:356-399) after body validation:
the submitted email is lower-cased, `authenticate_user` decides the
outcome, and on failure the two credential errors map to two different
200-status bodies, "Invalid password" and "User not found", while any
other error maps to a 500. -/
def login (argon2fn : Argon2Params → List Nat → List Nat → List Nat)
    (db : List User) (secret : List Nat) (now : Nat)
    (email password : List Nat) : LoginResponse :=
  let email' := rust_to_lowercase email
  match authenticate_user argon2fn db email' password with
  | .ok user => .okToken 200 (generate_jwt secret user.id now) user.username
  | .error CustomError.invalidPassword => .failMsg 200 "Invalid password"
  | .error CustomError.userNotFound => .failMsg 200 "User not found"
  | .error _ => .failMsg 500 "An internal error occurred"

/-- The lookup digest a registration computes end to end: the HTTP layer
lower-cases the submitted email (server.rs:301) before `register` hashes
it (database.rs:314). -/
def register_lookup_digest (email : List Nat) : String :=
  register_email_hash (rust_to_lowercase email)

/-- The lookup digest a login computes end to end: the HTTP layer
lower-cases the submitted email (server.rs:365) before `authenticate_user`
hashes it (database.rs:433). -/
def login_lookup_digest (email : List Nat) : String :=
  authenticate_email_hash (rust_to_lowercase email)

/-- Claim C3 (amended): both failure causes produce an HTTP 200 response
with success false, but with different message texts — "User not found"
for an unknown identity and "Invalid password" for a wrong password — so
the outcome reported to the caller distinguishes the cause. -/
theorem c3_login_failures_distinguished :
    ∀ (argon2fn : Argon2Params → List Nat → List Nat → List Nat)
      (db : List User) (secret : List Nat) (now : Nat) (email password : List Nat),
      (authenticate_user argon2fn db (rust_to_lowercase email) password =
          .error .userNotFound →
        login argon2fn db secret now email password = .failMsg 200 "User not found") ∧
      (authenticate_user argon2fn db (rust_to_lowercase email) password =
          .error .invalidPassword →
        login argon2fn db secret now email password = .failMsg 200 "Invalid password") ∧
      (LoginResponse.failMsg 200 "User not found" ≠ .failMsg 200 "Invalid password") := by
  intro argon2fn db secret now email password
  refine ⟨?_, ?_, by decide⟩
  · intro h
    simp [login, h]
  · intro h
    simp [login, h]

/-- A store with one registered user: email a@b.com (stored by its
digest), password longpassword1 hashed with the identity KDF and a fixed
salt. -/
def c3StoreUser : User :=
  { id := utf8Encode "users:1"
    encrypted_firstname := []
    encrypted_lastname := []
    username := utf8Encode "alice"
    password_hash := hash_random_salt (fun _ p _ => p) (List.replicate 16 7)
      (utf8Encode "longpassword1")
    encrypted_email := []
    email_hash := bytesToHex (sha256 (utf8Encode "a@b.com"))
    created_at := [] }

/-- Claim C3, counterexample: with one user registered under a@b.com, a
login with an unknown email and a login with the right email but wrong
password both fail, yet report different outcomes. -/
theorem c3_counterexample :
    login (fun _ p _ => p) [c3StoreUser] (utf8Encode "secret") 0
        (utf8Encode "b@b.com") (utf8Encode "longpassword1") =
      .failMsg 200 "User not found" ∧
    login (fun _ p _ => p) [c3StoreUser] (utf8Encode "secret") 0
        (utf8Encode "a@b.com") (utf8Encode "wrongpassword") =
      .failMsg 200 "Invalid password" ∧
    LoginResponse.failMsg 200 "User not found" ≠ .failMsg 200 "Invalid password" := by
  refine ⟨?_, ?_, by decide⟩
  · decide
  · decide

/-- Witness for C3 at the same store: discharging each hypothesis at the
concrete failing logins. -/
theorem c3_login_failures_distinguished_witness :
    login (fun _ p _ => p) [c3StoreUser] (utf8Encode "secret") 0
        (utf8Encode "b@b.com") (utf8Encode "longpassword1") =
      .failMsg 200 "User not found" ∧
    login (fun _ p _ => p) [c3StoreUser] (utf8Encode "secret") 0
        (utf8Encode "a@b.com") (utf8Encode "wrongpassword") =
      .failMsg 200 "Invalid password" := by
  obtain ⟨h1, _, _⟩ := c3_login_failures_distinguished (fun _ p _ => p) [c3StoreUser]
    (utf8Encode "secret") 0 (utf8Encode "b@b.com") (utf8Encode "longpassword1")
  obtain ⟨_, h2, _⟩ := c3_login_failures_distinguished (fun _ p _ => p) [c3StoreUser]
    (utf8Encode "secret") 0 (utf8Encode "a@b.com") (utf8Encode "wrongpassword")
  exact ⟨h1 (by decide), h2 (by decide)⟩

/-- Claim C10: for every pair of submitted emails that agree after
lower-casing, the digest computed on the registration path equals the
digest computed on the login path — the end-to-end lookup is
case-insensitive — even though the digest operation itself applies no
normalization (the spec's example pair hashes to different digests when
not lower-cased first). -/
theorem c10_lowercase_before_digest :
    (∀ e1 e2 : List Nat, rust_to_lowercase e1 = rust_to_lowercase e2 →
      register_lookup_digest e1 = login_lookup_digest e2) ∧
    register_email_hash (utf8Encode "A@x.com") ≠ register_email_hash (utf8Encode "a@x.com") := by
  constructor
  · intro e1 e2 h
    simp [register_lookup_digest, login_lookup_digest, register_email_hash,
      authenticate_email_hash, h]
  · decide

/-- Witness for C10: the spec's example pair, differing only in letter
case, produces identical end-to-end digests. -/
theorem c10_lowercase_before_digest_witness :
    register_lookup_digest (utf8Encode "A@B.com") =
      login_lookup_digest (utf8Encode "a@b.com") :=
  c10_lowercase_before_digest.1 (utf8Encode "A@B.com") (utf8Encode "a@b.com") (by decide)

/-! ## src/middleware.rs -/

/-- HTTP methods as far as the middleware distinguishes them. -/
inductive HttpMethod where
  | options
  | get
  | post
  | put
  | delete
  | other
deriving DecidableEq

/-- The request data the middleware inspects: method, path, and raw
header name-value pairs. -/
structure ServiceRequest where
  method : HttpMethod
  path : List Nat
  headers : List (List Nat × List Nat)
deriving DecidableEq

/-- Header lookup by name, first match, as actix HeaderMap::get. -/
def getHeader (headers : List (List Nat × List Nat)) (name : List Nat) : Option (List Nat) :=
  (headers.find? (fun h => h.1 = name)).map (fun h => h.2)

/-- Whether HeaderValue::to_str succeeds: every byte visible ASCII. -/
def headerValueToStrOk (v : List Nat) : Bool := v.all fun b => decide (32 ≤ b ∧ b < 127)

/-- Bearer-scheme extraction, as `strip_prefix("Bearer ")`. -/
def stripBearer (v : List Nat) : Option (List Nat) :=
  if (utf8Encode "Bearer ").isPrefixOf v then some (v.drop 7) else none

/-- ASCII whitespace, for `str::trim` on ASCII content. -/
def isAsciiWs (b : Nat) : Bool := b = 32 ∨ b = 9 ∨ b = 10 ∨ b = 13 ∨ b = 11 ∨ b = 12

/-- Models `str::trim` on ASCII content: strip leading and trailing
whitespace bytes. -/
def trimAscii (s : List Nat) : List Nat :=
  ((s.dropWhile isAsciiWs).reverse.dropWhile isAsciiWs).reverse

/-- The middleware's observable outcome: either the wrapped service is
invoked (with the user id the middleware inserted into the request
extensions, when any) or the request is rejected before any downstream
processing. -/
inductive AuthOutcome where
  | forwarded (userId : Option (List Nat))
  | rejected (status : Nat) (message : String)
deriving DecidableEq

/-- Models `AuthenticationMiddleware::call` (middleware.rs:55-113):
OPTIONS requests and the paths "/", "/web/..." and "/auth/..." bypass
authentication; otherwise a missing Authorization header, a non-ASCII
header value, a non-Bearer scheme, or a token failing validation each
reject the request with status 401 and the shown message; on success the
validated subject id is attached and the wrapped service is called.  The
code validates the token twice (`validate_jwt` then
`extract_user_id_from_jwt`); both calls are modelled at the same instant. -/
def authMiddlewareCall (secret : List Nat) (now : Nat) (req : ServiceRequest) : AuthOutcome :=
  if req.method = .options ∨ req.path = utf8Encode "/" ∨
      (utf8Encode "/web/").isPrefixOf req.path ∨ (utf8Encode "/auth/").isPrefixOf req.path then
    .forwarded none
  else
    match getHeader req.headers (utf8Encode "Authorization") with
    | none => .rejected 401 "Missing authorization header"
    | some v =>
        if headerValueToStrOk v then
          match stripBearer v with
          | none => .rejected 401 "Invalid authorization format"
          | some rawToken =>
              match validate_jwt secret (trimAscii rawToken) now with
              | .error _ => .rejected 401 "Invalid token"
              | .ok _ =>
                  match extract_user_id_from_jwt secret (trimAscii rawToken) now with
                  | .error _ => .rejected 401 "Invalid token"
                  | .ok userId => .forwarded (some userId)
        else .rejected 401 "Invalid authorization header value"

/-- Claim C9, counterexample: an OPTIONS request to a path outside the
public allow-list, carrying no Authorization header at all, is forwarded
to the wrapped service instead of being rejected. -/
theorem c9_counterexample :
    authMiddlewareCall (utf8Encode "secret") 0
        ⟨.options, utf8Encode "/api/offers", []⟩ = .forwarded none ∧
    utf8Encode "/api/offers" ≠ utf8Encode "/" ∧
    (utf8Encode "/web/").isPrefixOf (utf8Encode "/api/offers") = false ∧
    (utf8Encode "/auth/").isPrefixOf (utf8Encode "/api/offers") = false := by
  decide

/-- Claim C9 (amended): for every request whose method is not OPTIONS —
the method-based exemption the code adds beyond the path allow-list — and
whose path is not on the allow-list: every rejection carries status 401; a
missing header, an unreadable header value, a non-Bearer scheme and an
invalid token are each rejected with status 401 and the downstream service
is not invoked; and the request is forwarded exactly when the (trimmed)
bearer token validates, with the validated subject attached. -/
theorem c9_authorization_guard (secret : List Nat) (now : Nat) (req : ServiceRequest)
    (hm : req.method ≠ .options)
    (hp1 : req.path ≠ utf8Encode "/")
    (hp2 : (utf8Encode "/web/").isPrefixOf req.path = false)
    (hp3 : (utf8Encode "/auth/").isPrefixOf req.path = false) :
    (∀ st msg, authMiddlewareCall secret now req = .rejected st msg → st = 401) ∧
    (getHeader req.headers (utf8Encode "Authorization") = none →
      authMiddlewareCall secret now req = .rejected 401 "Missing authorization header") ∧
    (∀ v, getHeader req.headers (utf8Encode "Authorization") = some v →
      (headerValueToStrOk v = false →
        authMiddlewareCall secret now req =
          .rejected 401 "Invalid authorization header value") ∧
      (headerValueToStrOk v = true → stripBearer v = none →
        authMiddlewareCall secret now req = .rejected 401 "Invalid authorization format") ∧
      (∀ rawToken, headerValueToStrOk v = true → stripBearer v = some rawToken →
        (∀ e, validate_jwt secret (trimAscii rawToken) now = .error e →
          authMiddlewareCall secret now req = .rejected 401 "Invalid token") ∧
        (∀ cl, validate_jwt secret (trimAscii rawToken) now = .ok cl →
          authMiddlewareCall secret now req = .forwarded (some cl.sub)))) := by
  have hby : ¬(req.method = .options ∨ req.path = utf8Encode "/" ∨
      (utf8Encode "/web/").isPrefixOf req.path ∨
      (utf8Encode "/auth/").isPrefixOf req.path) := by
    simp [hm, hp1, hp2, hp3]
  refine ⟨?_, ?_, ?_⟩
  · intro st msg hout
    rw [authMiddlewareCall, if_neg hby] at hout
    repeat' split at hout
    all_goals simp_all
  · intro hh
    rw [authMiddlewareCall, if_neg hby, hh]
  · intro v hh
    refine ⟨?_, ?_, ?_⟩
    · intro hbad
      rw [authMiddlewareCall, if_neg hby, hh]
      simp [hbad]
    · intro hok hsb
      rw [authMiddlewareCall, if_neg hby, hh]
      simp [hok, hsb]
    · intro rawToken hok hsb
      constructor
      · intro e hv
        rw [authMiddlewareCall, if_neg hby, hh]
        simp [hok, hsb, hv]
      · intro cl hv
        have hx : extract_user_id_from_jwt secret (trimAscii rawToken) now = .ok cl.sub := by
          rw [extract_user_id_from_jwt, hv]
          rfl
        rw [authMiddlewareCall, if_neg hby, hh]
        simp [hok, hsb, hv, hx]

/-- Witness for C9: a GET request to a non-public path with no headers is
rejected with 401 for the missing header. -/
theorem c9_authorization_guard_witness :
    authMiddlewareCall (utf8Encode "secret") 0 ⟨.get, utf8Encode "/api/offers", []⟩ =
      .rejected 401 "Missing authorization header" := by
  obtain ⟨_, h2, _⟩ := c9_authorization_guard (utf8Encode "secret") 0
    ⟨.get, utf8Encode "/api/offers", []⟩ (by decide) (by decide) (by decide) (by decide)
  exact h2 (by decide)
